import Mathlib

/-!
Verification of the string-processing core of `scripts/scrape_atp_tournaments.py`.

The scraper is a fetch → parse → normalize → dedupe → serialize pipeline.  Its
pure string functions (whitespace normalization, location/date splitting, the
regex-based date parsers, the surface/winner heuristics, deduplication) are
embedded here over `List Char`; the effectful pieces (HTTP fetching, HTML
parsing) are modelled by explicit parameters carrying the data they would
produce (per-attempt responses, extracted page text, decoded JSON payloads).

Python's regexes in this file are hand-compiled to deterministic scanners.
Each such definition carries the original pattern in its doc string; the
determinism is justified case by case: every greedy or lazy repetition in the
source patterns is followed by a character class disjoint from the repeated
class, so backtracking can never produce a different result than the maximal
(resp. minimal) run.
-/

namespace ATPScrape

/-- Python `\s` for the ASCII range (the scraped pages are ASCII):
space, tab, newline, carriage return, vertical tab, form feed. -/
def isWsPy (c : Char) : Bool :=
  c = ' ' || c = '\t' || c = '\n' || c = '\r' || c = '\x0b' || c = '\x0c'

/-- Python regex class `[A-Za-z]`. -/
def isAlphaPy (c : Char) : Bool :=
  ('A' ≤ c && c ≤ 'Z') || ('a' ≤ c && c ≤ 'z')

/-- Python regex class `\d` (ASCII digits). -/
def isDigitPy (c : Char) : Bool :=
  '0' ≤ c && c ≤ '9'

/-- Python regex class `[A-Z]`. -/
def isUpperPy (c : Char) : Bool :=
  'A' ≤ c && c ≤ 'Z'

/-- Python regex class `[a-z]`. -/
def isLowerPy (c : Char) : Bool :=
  'a' ≤ c && c ≤ 'z'

/-- `re.sub(r"\s+", " ", s)`: every maximal run of whitespace becomes a
single space.  A whitespace character is dropped when the next character is
also whitespace (the run's last character alone produces the space). -/
def collapseWs : List Char → List Char
  | [] => []
  | c :: cs =>
    if isWsPy c then
      match cs with
      | [] => [' ']
      | c2 :: _ => if isWsPy c2 then collapseWs cs else ' ' :: collapseWs cs
    else c :: collapseWs cs

/-- Leading part of Python `str.strip()`. -/
def stripLeadWs (s : List Char) : List Char :=
  s.dropWhile isWsPy

/-- Trailing part of Python `str.strip()`. -/
def stripTrailWs (s : List Char) : List Char :=
  (s.reverse.dropWhile isWsPy).reverse

/-- `normalize_ws(s)`, lines 41–44: `re.sub(r"\s+", " ", s).strip()`
(the `if not s: return ""` guard is the identity in this model, since an
absent string is represented by `[]`). -/
def normalize_ws (s : List Char) : List Char :=
  stripTrailWs (stripLeadWs (collapseWs s))

/-- `split_location_and_date(s)`, lines 46–51.  `s.split("|", 1)` with the
separator present always yields exactly two parts, so the `len(parts) == 2`
test in the source is true whenever `"|" in s`. -/
def split_location_and_date (s : List Char) : List Char × List Char :=
  if s.contains '|' then
    (normalize_ws (s.takeWhile (fun c => c != '|')),
     normalize_ws ((s.dropWhile (fun c => c != '|')).tail))
  else ([], normalize_ws s)

/-- Python `str.split()` with no argument (used for `cand.split()` in the
winner heuristic): the list of maximal non-whitespace runs.  The accumulator
holds the current word reversed. -/
def pyWordsGo (acc : List Char) : List Char → List (List Char)
  | [] => if acc.isEmpty then [] else [acc.reverse]
  | c :: cs =>
    if isWsPy c then
      if acc.isEmpty then pyWordsGo [] cs else acc.reverse :: pyWordsGo [] cs
    else pyWordsGo (c :: acc) cs

/-- Python `s.split()`. -/
def pyWords (s : List Char) : List (List Char) :=
  pyWordsGo [] s

/-- Python `" ".join(ws)`: single spaces between the given words.
`normalize_ws s` is proved below to equal `joinSp (pyWords s)`. -/
def joinSp : List (List Char) → List Char
  | [] => []
  | [w] => w
  | w :: ws => w ++ ' ' :: joinSp ws

/-! ## Date-range parsing (`parse_date_range`, lines 53–74)

Each `re.match` pattern is compiled to a scanner.  In the source patterns a
greedy repetition is always followed by a literal or class disjoint from the
repeated class (letters are followed by whitespace, digits by a `-`, `,`, `.`
or whitespace, whitespace by non-whitespace), so each repetition
deterministically consumes its maximal run; in particular a maximal digit run
longer than the `{1,2}` bound can never match, because backtracking inside
the run still leaves a digit where the following non-digit is required. -/

/-- Regex `X{n}` for a character class `X`: exactly `n` characters
satisfying `p`, returned with the rest of the input. -/
def takeExact (p : Char → Bool) (n : Nat) (s : List Char) :
    Option (List Char × List Char) :=
  if (s.take n).length = n && (s.take n).all p then some (s.take n, s.drop n)
  else none

/-- `re.match(r"([A-Za-z]{3,})\s+(\d{1,2})\-(\d{1,2}),\s*(\d{4})", s)`
(first pattern of `parse_date_range`): the four captured groups. -/
def matchMonDDYr (s : List Char) :
    Option (List Char × List Char × List Char × List Char) :=
  let mon := s.takeWhile isAlphaPy
  if mon.length < 3 then none else
  let r1 := s.dropWhile isAlphaPy
  if (r1.takeWhile isWsPy).isEmpty then none else
  let r2 := r1.dropWhile isWsPy
  let d1 := r2.takeWhile isDigitPy
  if d1.length < 1 || 2 < d1.length then none else
  match r2.dropWhile isDigitPy with
  | '-' :: r4 =>
    let d2 := r4.takeWhile isDigitPy
    if d2.length < 1 || 2 < d2.length then none else
    match r4.dropWhile isDigitPy with
    | ',' :: r6 =>
      match takeExact isDigitPy 4 (r6.dropWhile isWsPy) with
      | some (y, _) => some (mon, d1, d2, y)
      | none => none
    | _ => none
  | _ => none

/-- `re.match(r"([A-Za-z]{3,})\s+(\d{1,2})\s*-\s*([A-Za-z]{3,})\s+(\d{1,2}),\s*(\d{4})", s)`
(second pattern): the five captured groups. -/
def matchMonDMonDYr (s : List Char) :
    Option (List Char × List Char × List Char × List Char × List Char) :=
  let mon1 := s.takeWhile isAlphaPy
  if mon1.length < 3 then none else
  let r1 := s.dropWhile isAlphaPy
  if (r1.takeWhile isWsPy).isEmpty then none else
  let r2 := r1.dropWhile isWsPy
  let d1 := r2.takeWhile isDigitPy
  if d1.length < 1 || 2 < d1.length then none else
  match (r2.dropWhile isDigitPy).dropWhile isWsPy with
  | '-' :: r5 =>
    let r6 := r5.dropWhile isWsPy
    let mon2 := r6.takeWhile isAlphaPy
    if mon2.length < 3 then none else
    let r7 := r6.dropWhile isAlphaPy
    if (r7.takeWhile isWsPy).isEmpty then none else
    let r8 := r7.dropWhile isWsPy
    let d2 := r8.takeWhile isDigitPy
    if d2.length < 1 || 2 < d2.length then none else
    match r8.dropWhile isDigitPy with
    | ',' :: r10 =>
      match takeExact isDigitPy 4 (r10.dropWhile isWsPy) with
      | some (y, _) => some (mon1, d1, mon2, d2, y)
      | none => none
    | _ => none
  | _ => none

/-- The dotted token `\d{4}\.\d{2}\.\d{2}`: the matched text and the rest. -/
def matchYmdToken (s : List Char) : Option (List Char × List Char) :=
  match takeExact isDigitPy 4 s with
  | some (y, r1) =>
    match r1 with
    | '.' :: r2 =>
      match takeExact isDigitPy 2 r2 with
      | some (mo, r3) =>
        match r3 with
        | '.' :: r4 =>
          match takeExact isDigitPy 2 r4 with
          | some (d, r5) => some (y ++ '.' :: mo ++ '.' :: d, r5)
          | none => none
        | _ => none
      | none => none
    | _ => none
  | none => none

/-- The dotted token `\d{1,2}\.\d{1,2}\.\d{4}`: the matched text and the
rest (each `\d{1,2}` is immediately followed by `\.`, so its maximal run
must have length 1 or 2). -/
def matchDmyToken (s : List Char) : Option (List Char × List Char) :=
  let d := s.takeWhile isDigitPy
  if d.length < 1 || 2 < d.length then none else
  match s.dropWhile isDigitPy with
  | '.' :: r2 =>
    let mo := r2.takeWhile isDigitPy
    if mo.length < 1 || 2 < mo.length then none else
    match r2.dropWhile isDigitPy with
    | '.' :: r4 =>
      match takeExact isDigitPy 4 r4 with
      | some (y, r5) => some (d ++ '.' :: mo ++ '.' :: y, r5)
      | none => none
    | _ => none
  | _ => none

/-- `re.match(r"(\d{4}\.\d{2}\.\d{2})\s*-\s*(\d{4}\.\d{2}\.\d{2})", s)`
(third pattern): the two captured groups. -/
def matchYmdRange (s : List Char) : Option (List Char × List Char) :=
  match matchYmdToken s with
  | some (t1, r1) =>
    match r1.dropWhile isWsPy with
    | '-' :: r3 =>
      match matchYmdToken (r3.dropWhile isWsPy) with
      | some (t2, _) => some (t1, t2)
      | none => none
    | _ => none
  | none => none

/-- `re.match(r"(\d{1,2}\.\d{1,2}\.\d{4})\s*-\s*(\d{1,2}\.\d{1,2}\.\d{4})", s)`
(fourth pattern): the two captured groups. -/
def matchDmyRange (s : List Char) : Option (List Char × List Char) :=
  match matchDmyToken s with
  | some (t1, r1) =>
    match r1.dropWhile isWsPy with
    | '-' :: r3 =>
      match matchDmyToken (r3.dropWhile isWsPy) with
      | some (t2, _) => some (t1, t2)
      | none => none
    | _ => none
  | none => none

/-- First alternative `[A-Za-z]{3,}\s+\d{1,2},\s*\d{4}` of the
`re.findall` fallback pattern, tried at the current position: the matched
text (including its original interior whitespace) and the rest. -/
def matchMonthToken (s : List Char) : Option (List Char × List Char) :=
  let mon := s.takeWhile isAlphaPy
  if mon.length < 3 then none else
  let r1 := s.dropWhile isAlphaPy
  let sp := r1.takeWhile isWsPy
  if sp.isEmpty then none else
  let r2 := r1.dropWhile isWsPy
  let d := r2.takeWhile isDigitPy
  if d.length < 1 || 2 < d.length then none else
  match r2.dropWhile isDigitPy with
  | ',' :: r4 =>
    let sp2 := r4.takeWhile isWsPy
    match takeExact isDigitPy 4 (r4.dropWhile isWsPy) with
    | some (y, r6) => some (mon ++ sp ++ d ++ ',' :: sp2 ++ y, r6)
    | none => none
  | _ => none

/-- The alternation of
`re.findall(r"([A-Za-z]{3,}\s+\d{1,2},\s*\d{4}|\d{1,2}\.\d{1,2}\.\d{4}|\d{4}\.\d{2}\.\d{2})", s)`
tried at one position, alternatives in the source's order. -/
def dateTokenAt (s : List Char) : Option (List Char × List Char) :=
  match matchMonthToken s with
  | some p => some p
  | none =>
    match matchDmyToken s with
    | some p => some p
    | none => matchYmdToken s

/-- Scanner for `re.findall`: at each position try the alternation; on a
match emit the token and resume after it, otherwise advance one character.
Every alternative consumes at least one character and returns the untouched
suffix `r` of its input, so resuming after the token is skipping
`cs.length - r.length` characters; the skip counter keeps the recursion
structural. -/
def findDateTokensGo : Nat → List Char → List (List Char)
  | k + 1, _ :: cs => findDateTokensGo k cs
  | _, [] => []
  | 0, c :: cs =>
    match dateTokenAt (c :: cs) with
    | some (t, r) => t :: findDateTokensGo (cs.length - r.length) cs
    | none => findDateTokensGo 0 cs

/-- `re.findall(...)` of the fallback date-token pattern over `s`. -/
def findDateTokens (s : List Char) : List (List Char) :=
  findDateTokensGo 0 s

/-- `parse_date_range(s)`, lines 53–74: normalize, try the four anchored
patterns in order, then fall back to scanning for up to two free-floating
date tokens; with fewer than two tokens return `(s, "")`. -/
def parse_date_range (s0 : List Char) : List Char × List Char :=
  let s := normalize_ws s0
  if s.isEmpty then ([], []) else
  match matchMonDDYr s with
  | some (mon, d1, d2, y) =>
    (mon ++ ' ' :: d1 ++ ',' :: ' ' :: y, mon ++ ' ' :: d2 ++ ',' :: ' ' :: y)
  | none =>
  match matchMonDMonDYr s with
  | some (mon1, d1, mon2, d2, y) =>
    (mon1 ++ ' ' :: d1 ++ ',' :: ' ' :: y, mon2 ++ ' ' :: d2 ++ ',' :: ' ' :: y)
  | none =>
  match matchYmdRange s with
  | some (t1, t2) => (t1, t2)
  | none =>
  match matchDmyRange s with
  | some (t1, t2) => (t1, t2)
  | none =>
  match findDateTokens s with
  | t1 :: t2 :: _ => (t1, t2)
  | _ => (s, [])

/-! ## Formatted-date parsing (`normalize_date_token` lines 76–91,
`parse_formatted_date_range` lines 93–102) -/

/-- Python `str(int(d))` for a non-empty digit string `d`: leading zeros
removed (all-zero input yields `"0"`). -/
def intStr (d : List Char) : List Char :=
  if (d.dropWhile (fun c => c == '0')).isEmpty then ['0']
  else d.dropWhile (fun c => c == '0')

/-- `re.match(r"(\d{1,2})\s+([A-Za-z]{3,}),\s*(\d{4})", token)`
("27 December, 2024" order): the three captured groups. -/
def matchDMonYr (s : List Char) :
    Option (List Char × List Char × List Char) :=
  let d := s.takeWhile isDigitPy
  if d.length < 1 || 2 < d.length then none else
  let r1 := s.dropWhile isDigitPy
  if (r1.takeWhile isWsPy).isEmpty then none else
  let r2 := r1.dropWhile isWsPy
  let mon := r2.takeWhile isAlphaPy
  if mon.length < 3 then none else
  match r2.dropWhile isAlphaPy with
  | ',' :: r4 =>
    match takeExact isDigitPy 4 (r4.dropWhile isWsPy) with
    | some (y, _) => some (d, mon, y)
    | none => none
  | _ => none

/-- `re.match(r"([A-Za-z]{3,})\s+(\d{1,2}),\s*(\d{4})", token)`
("January 5, 2025" order): the three captured groups. -/
def matchMonDYr (s : List Char) :
    Option (List Char × List Char × List Char) :=
  let mon := s.takeWhile isAlphaPy
  if mon.length < 3 then none else
  let r1 := s.dropWhile isAlphaPy
  if (r1.takeWhile isWsPy).isEmpty then none else
  let r2 := r1.dropWhile isWsPy
  let d := r2.takeWhile isDigitPy
  if d.length < 1 || 2 < d.length then none else
  match r2.dropWhile isDigitPy with
  | ',' :: r4 =>
    match takeExact isDigitPy 4 (r4.dropWhile isWsPy) with
    | some (y, _) => some (mon, d, y)
    | none => none
  | _ => none

/-- `normalize_date_token(token)`, lines 76–91: normalize whitespace, try
the "D Month, YYYY" then the "Month D, YYYY" shapes (rebuilding as
`f"{mon} {int(d)}, {year}"`), otherwise pass the token through. -/
def normalize_date_token (token0 : List Char) : List Char :=
  let token := normalize_ws token0
  if token.isEmpty then [] else
  match matchDMonYr token with
  | some (d, mon, y) => mon ++ ' ' :: intStr d ++ ',' :: ' ' :: y
  | none =>
  match matchMonDYr token with
  | some (mon, d, y) => mon ++ ' ' :: intStr d ++ ',' :: ' ' :: y
  | none => token

/-- `parse_formatted_date_range(formatted)`, lines 93–102: if the string
has a hyphen, a comma and a digit, split on the first hyphen
(`formatted.split("-", 1)` always yields two parts when `"-"` is present,
so the source's `len(parts) == 2` test holds) and normalize each side;
otherwise delegate to `parse_date_range`. -/
def parse_formatted_date_range (formatted : List Char) : List Char × List Char :=
  if formatted.isEmpty then ([], []) else
  if formatted.contains '-' && formatted.contains ',' && formatted.any isDigitPy
  then
    (normalize_date_token (normalize_ws (formatted.takeWhile (fun c => c != '-'))),
     normalize_date_token (normalize_ws ((formatted.dropWhile (fun c => c != '-')).tail)))
  else parse_date_range formatted

/-! ## Surface extraction (`try_extract_surface_text`, lines 111–121) -/

/-- Python `str.lower()` for ASCII. -/
def toLowerPy (c : Char) : Char :=
  if isUpperPy c then Char.ofNat (c.toNat + 32) else c

/-- Python `str.upper()` for ASCII. -/
def toUpperPy (c : Char) : Char :=
  if isLowerPy c then Char.ofNat (c.toNat - 32) else c

/-- `re.IGNORECASE` match of one pattern character `k` against a text
character: for ASCII this accepts exactly the two case variants of `k`. -/
def charCI (k c : Char) : Bool :=
  c = toLowerPy k || c = toUpperPy k

/-- Case-insensitive literal match at the current position: the matched
text and the rest. -/
def stripLitCI : List Char → List Char → Option (List Char × List Char)
  | [], s => some ([], s)
  | _ :: _, [] => none
  | k :: ks, c :: cs =>
    if charCI k c then
      match stripLitCI ks cs with
      | some (m, r) => some (c :: m, r)
      | none => none
    else none

/-- One position of `re.search` over an alternation of case-insensitive
literals, alternatives in the given order: the matched text. -/
def altsAtCI (alts : List (List Char)) (s : List Char) : Option (List Char) :=
  match alts with
  | [] => none
  | a :: rest =>
    match stripLitCI a s with
    | some (m, _) => some m
    | none => altsAtCI rest s

/-- `re.search` over an alternation of case-insensitive literals: scan
left to right, first position (then first alternative) wins. -/
def searchAltsCI (alts : List (List Char)) : List Char → Option (List Char)
  | [] => altsAtCI alts []
  | c :: cs =>
    match altsAtCI alts (c :: cs) with
    | some m => some m
    | none => searchAltsCI alts cs

/-- Python `str.title()` for ASCII: a letter is uppercased after a
non-letter (or at the start) and lowercased after a letter. -/
def pyTitleGo (prevAlpha : Bool) : List Char → List Char
  | [] => []
  | c :: cs =>
    if isAlphaPy c then
      (if prevAlpha then toLowerPy c else toUpperPy c) :: pyTitleGo true cs
    else c :: pyTitleGo false cs

/-- Python `str.title()`. -/
def pyTitle (s : List Char) : List Char :=
  pyTitleGo false s

/-- The surface alternation `(Hard|Clay|Grass|Carpet|Acrylic|Synthetic)`. -/
def surfaceKeywords : List (List Char) :=
  ["Hard".data, "Clay".data, "Grass".data, "Carpet".data, "Acrylic".data,
   "Synthetic".data]

/-- `try_extract_surface_text`, lines 111–121, applied to the container's
visible text (the source's `container.get_text(separator=" ")`): search the
normalized text for a surface keyword (case-insensitive, title-cased on
output) and for `(Indoor|Outdoor)`, whose result is `"Indoor"` exactly when
the matched text lowercased starts with `"in"`. -/
def try_extract_surface_text (text : List Char) : List Char × List Char :=
  let t := normalize_ws text
  let surf :=
    match searchAltsCI surfaceKeywords t with
    | some m => pyTitle m
    | none => []
  let inOut :=
    match searchAltsCI ["Indoor".data, "Outdoor".data] t with
    | some m =>
      if (m.map toLowerPy).take 2 = "in".data then "Indoor".data
      else "Outdoor".data
    | none => []
  (surf, inOut)

/-! ## Winner extraction (`try_extract_winner_from_results`, lines 123–137)

The function fetches a results page and applies two regex heuristics to its
visible text.  The text-level part (lines 128–137) is embedded below as a
function of the extracted page text `txt`; a failed or empty fetch returns
`""` before this code runs (lines 124–126).

Heuristic (a) is
`re.search(r"(Singles.*?)((Champion|Winner)[^A-Za-z0-9]+([A-Z][a-zA-Z]+(?:\s+[A-Z][a-zA-Z\-']+){0,3}))", txt, re.IGNORECASE)`;
heuristic (b) is
`re.search(r"(Champion|Winner)\s*:\s*([A-Z][a-zA-Z]+(?:\s+[A-Z][a-zA-Z\-']+){0,3})", txt)`.
Under `re.IGNORECASE` the classes `[A-Z]` and `[a-zA-Z]` both match every
letter.  The name subpattern's repetitions are again all followed by
disjoint classes (letters end at whitespace, whitespace ends at a letter),
and nothing follows the name group, so the greedy `{0,3}` simply takes as
many continuation words as are present, up to 3. -/

/-- The apostrophe character of the class `[a-zA-Z\-']`. -/
def aposChar : Char := Char.ofNat 39

/-- Class `[a-zA-Z\-']` (and its `re.IGNORECASE` variant, which is the
same set). -/
def isNameContRest (c : Char) : Bool :=
  isAlphaPy c || c = '-' || c = aposChar

/-- Greedy `(?:\s+W)item{0,k}` for a continuation-word pattern `W` given by
a first-character class `cs` and a rest class `cr`: the list of matched
`(separator, word)` pairs, with the rest of the input. -/
def contWordsWith (cs cr : Char → Bool) :
    Nat → List Char → List (List Char × List Char) × List Char
  | 0, s => ([], s)
  | k + 1, s =>
    let sep := s.takeWhile isWsPy
    if sep.isEmpty then ([], s) else
    match s.dropWhile isWsPy with
    | [] => ([], s)
    | c :: rest =>
      if cs c then
        let w := rest.takeWhile cr
        if w.isEmpty then ([], s)
        else
          let p := contWordsWith cs cr k (rest.dropWhile cr)
          ((sep, c :: w) :: p.1, p.2)
      else ([], s)

/-- The name subpattern `F R+(?:\s+C D+){0,3}` with first-word classes
`fs`, `fr` and continuation-word classes `cs`, `cr`: the first word and the
`(separator, word)` pairs. -/
def matchNameWith (fs fr cs cr : Char → Bool) (s : List Char) :
    Option (List Char × List (List Char × List Char)) :=
  match s with
  | [] => none
  | c :: rest =>
    if fs c then
      let w := rest.takeWhile fr
      if w.isEmpty then none
      else some (c :: w, (contWordsWith cs cr 3 (rest.dropWhile fr)).1)
    else none

/-- The matched text of a name match: the first word followed by the
matched separators and continuation words. -/
def candOf (w : List Char) (ps : List (List Char × List Char)) : List Char :=
  w ++ ps.foldr (fun p acc => p.1 ++ p.2 ++ acc) []

/-- Group 2 of heuristic (a) tried at the current position:
`(Champion|Winner)[^A-Za-z0-9]+NAME` under `re.IGNORECASE`; returns the
name-group match.  (The two literal alternatives differ in their first
letter, so at most one can apply.)  After the maximal non-alphanumeric run,
the next character must be a letter; a digit there fails, exactly as in the
source, where backtracking the `+` run cannot expose a letter. -/
def winnerGroup2A (s : List Char) :
    Option (List Char × List (List Char × List Char)) :=
  let afterLit :=
    match stripLitCI "Champion".data s with
    | some (_, r) => some r
    | none =>
      match stripLitCI "Winner".data s with
      | some (_, r) => some r
      | none => none
  match afterLit with
  | none => none
  | some r =>
    if (r.takeWhile (fun c => !(isAlphaPy c || isDigitPy c))).isEmpty then none
    else
      matchNameWith isAlphaPy isAlphaPy isAlphaPy isNameContRest
        (r.dropWhile (fun c => !(isAlphaPy c || isDigitPy c)))

/-- The lazy `.*?` of heuristic (a): try group 2 at the current position,
else skip one non-newline character (`.` does not match a newline) and
retry; the shortest skip wins. -/
def lazyDotScanA (s : List Char) :
    Option (List Char × List (List Char × List Char)) :=
  match winnerGroup2A s with
  | some m => some m
  | none =>
    match s with
    | [] => none
    | c :: cs => if c = '\n' then none else lazyDotScanA cs

/-- `re.search` of heuristic (a): the leftmost position where `Singles`
matches case-insensitively and the rest of the pattern completes. -/
def searchWinnerA : List Char → Option (List Char × List (List Char × List Char))
  | [] => none
  | c :: cs =>
    match stripLitCI "Singles".data (c :: cs) with
    | some (_, r) =>
      match lazyDotScanA r with
      | some m => some m
      | none => searchWinnerA cs
    | none => searchWinnerA cs

/-- Heuristic (b) tried at the current position:
`(Champion|Winner)\s*:\s*NAME`, case-sensitive. -/
def winnerBAt (s : List Char) :
    Option (List Char × List (List Char × List Char)) :=
  let afterLit :=
    if "Champion".data.isPrefixOf s then some (s.drop 8)
    else if "Winner".data.isPrefixOf s then some (s.drop 6)
    else none
  match afterLit with
  | none => none
  | some r =>
    match r.dropWhile isWsPy with
    | ':' :: r2 =>
      matchNameWith isUpperPy isAlphaPy isUpperPy isNameContRest
        (r2.dropWhile isWsPy)
    | _ => none

/-- `re.search` of heuristic (b): leftmost matching position. -/
def searchWinnerB : List Char → Option (List Char × List (List Char × List Char))
  | [] => none
  | c :: cs =>
    match winnerBAt (c :: cs) with
    | some m => some m
    | none => searchWinnerB cs

/-- Lines 129–137 of `try_extract_winner_from_results`, as a function of
the fetched page's visible text `txt`: heuristic (a) first, whose captured
name `cand = m.group(4)` is returned normalized when
`2 <= len(cand.split()) <= 4`; otherwise heuristic (b), whose captured name
is returned normalized; otherwise `""`. -/
def try_extract_winner_from_results_text (txt : List Char) : List Char :=
  let viaB :=
    match searchWinnerB txt with
    | some (w, ps) => normalize_ws (candOf w ps)
    | none => []
  match searchWinnerA txt with
  | some (w, ps) =>
    let cand := candOf w ps
    if 2 ≤ (pyWords cand).length && (pyWords cand).length ≤ 4 then
      normalize_ws cand
    else viaB
  | none => viaB

/-! ## Deduplication (`dedupe_rows`, lines 275–284) and the record shape -/

/-- A tournament record, lines 201–212 and 259–270: the ten string fields
written to the output files. -/
structure Row where
  name : List Char
  location : List Char
  start_date : List Char
  end_date : List Char
  surface : List Char
  indoor_outdoor : List Char
  winner : List Char
  results_url : List Char
  source : List Char
  source_page : List Char
deriving DecidableEq, Repr

/-- The dedupe key `(r.get("name",""), r.get("location",""),
r.get("start_date",""), r.get("end_date",""))`; every `Row` carries all
fields, so the `.get` defaults never apply. -/
def rowKey (r : Row) : List Char × List Char × List Char × List Char :=
  (r.name, r.location, r.start_date, r.end_date)

/-- The loop of `dedupe_rows`: the Python `seen` set is modelled as the
list of keys added so far (only membership is used). -/
def dedupeGo : List Row →
    List (List Char × List Char × List Char × List Char) → List Row
  | [], _ => []
  | r :: rs, seen =>
    if rowKey r ∈ seen then dedupeGo rs seen
    else r :: dedupeGo rs (rowKey r :: seen)

/-- `dedupe_rows(rows)`, lines 275–284. -/
def dedupe_rows (rows : List Row) : List Row :=
  dedupeGo rows []

/-- The first row of `rows` whose key is `k`. -/
def firstWithKey (rows : List Row)
    (k : List Char × List Char × List Char × List Char) : Option Row :=
  rows.find? (fun r => rowKey r = k)

/-! ## The fetcher (`fetch`, lines 30–39)

`fetch` performs up to `RETRY` requests; the network is modelled by a
function from the attempt index to that attempt's outcome (an exception or
a response with status code and body).  Alongside the result we record the
argument multipliers of the `time.sleep(SLEEP_BETWEEN * (i + 1))` calls, in
order; the sleep runs after every failed attempt, including the last. -/

/-- Outcome of one `requests.get`: a raised `requests.RequestException`, or
a response with a status code and a body text. -/
inductive AttemptOutcome where
  | exc : AttemptOutcome
  | resp (status : Nat) (body : List Char) : AttemptOutcome
deriving DecidableEq, Repr

/-- `RETRY = 3`, line 18. -/
def RETRY : Nat := 3

/-- The source's success test `200 <= resp.status_code < 300 and resp.text`. -/
def goodOutcome : AttemptOutcome → Bool
  | .exc => false
  | .resp st body => 200 ≤ st && st < 300 && !body.isEmpty

/-- Body of a response outcome. -/
def outcomeBody : AttemptOutcome → List Char
  | .exc => []
  | .resp _ body => body

/-- The `for i in range(RETRY)` loop of `fetch`, at attempt index `i` with
`n` attempts remaining: returns the result and the recorded sleep
multipliers `i + 1` of the failed attempts. -/
def fetchLoop (att : Nat → AttemptOutcome) : Nat → Nat → Option (List Char) × List Nat
  | 0, _ => (none, [])
  | n + 1, i =>
    if goodOutcome (att i) then (some (outcomeBody (att i)), [])
    else
      let p := fetchLoop att n (i + 1)
      (p.1, (i + 1) :: p.2)

/-- `fetch(url)`, lines 30–39, over the modelled per-attempt outcomes. -/
def fetch (att : Nat → AttemptOutcome) : Option (List Char) × List Nat :=
  fetchLoop att RETRY 0

/-! ## The JSON extractor (`parse_calendar_json`, lines 216–272)

The decoded payload is modelled by the nested `TournamentDates →
Tournaments` lists the source walks; each tournament's fields are `Option`s
(`none` is an absent or `null` field, so `t.get("Name", "")` is
`(t.Name).getD []` and `t.get("DrawsUrl") or ""` is `(t.DrawsUrl).getD []`).
The per-tournament winner fetch `try_extract_winner_from_results(url)`
(lines 253–257, a network call whose exceptions are swallowed) is modelled
by a parameter `winnerOf`. -/

/-- One entry of a tournament's JSON object, lines 235–242. -/
structure JsonTournament where
  Name : Option (List Char) := none
  Location : Option (List Char) := none
  FormattedDate : Option (List Char) := none
  Surface : Option (List Char) := none
  IndoorOutdoor : Option (List Char) := none
  DrawsUrl : Option (List Char) := none
  ScoresUrl : Option (List Char) := none
deriving DecidableEq, Repr

/-- One entry of `data["TournamentDates"]`. -/
structure JsonDate where
  Tournaments : List JsonTournament := []
deriving DecidableEq, Repr

/-- `"https://www.atptour.com"`, prefixed to root-relative result links. -/
def atpBase : List Char := "https://www.atptour.com".data

/-- The inner `for t in tournaments` loop, lines 234–270, threading the
`seen` set; returns the emitted rows and the final `seen`. -/
def jsonTournLoop (winnerOf : List Char → List Char) (url lbl : List Char) :
    List JsonTournament →
    List (List Char × List Char × List Char × List Char) →
    List Row × List (List Char × List Char × List Char × List Char)
  | [], seen => ([], seen)
  | t :: ts, seen =>
    let name := normalize_ws (t.Name.getD [])
    let location := normalize_ws (t.Location.getD [])
    let formatted := normalize_ws (t.FormattedDate.getD [])
    let dts := parse_formatted_date_range formatted
    let surface := normalize_ws (t.Surface.getD [])
    let indoor_outdoor := normalize_ws (t.IndoorOutdoor.getD [])
    let draws := t.DrawsUrl.getD []
    let scores := t.ScoresUrl.getD []
    let ru0 := if !draws.isEmpty then draws
               else if !scores.isEmpty then scores else []
    let results_url := if !ru0.isEmpty && ru0.head? = some '/' then atpBase ++ ru0
                       else ru0
    let key := (name, location, dts.1, dts.2)
    if key ∈ seen || name.isEmpty then jsonTournLoop winnerOf url lbl ts seen
    else
      let winner := if !results_url.isEmpty then winnerOf results_url else []
      let row : Row :=
        ⟨name, location, dts.1, dts.2, surface, indoor_outdoor, winner,
         results_url, lbl, url⟩
      let p := jsonTournLoop winnerOf url lbl ts (key :: seen)
      (row :: p.1, p.2)

/-- The outer `for d in dates` loop, lines 232–270. -/
def jsonDatesLoop (winnerOf : List Char → List Char) (url lbl : List Char) :
    List JsonDate →
    List (List Char × List Char × List Char × List Char) → List Row
  | [], _ => []
  | d :: ds, seen =>
    let p := jsonTournLoop winnerOf url lbl d.Tournaments seen
    p.1 ++ jsonDatesLoop winnerOf url lbl ds p.2

/-- `parse_calendar_json(url, event_type_label)`, lines 216–272, applied to
a successfully decoded payload (a failed request or malformed payload
returns `[]` before this loop runs, lines 217–227). -/
def parse_calendar_json_rows (winnerOf : List Char → List Char)
    (url lbl : List Char) (dates : List JsonDate) : List Row :=
  dedupe_rows (jsonDatesLoop winnerOf url lbl dates [])

/-- The orchestrator's `parse_calendar_json(...) or parse_calendar_like(...)`
(lines 298, 303, 308): Python `or` yields the right operand exactly when
the left is an empty list. -/
def jsonOrHtml (jsonRows htmlRows : List Row) : List Row :=
  if jsonRows.isEmpty then htmlRows else jsonRows

/-! ## Concrete sample data used by the claim witnesses -/

/-- Two sample rows sharing the dedupe key but differing in `winner`. -/
def rowSampleA : Row :=
  ⟨"Miami Open".data, "Miami".data, "March 19, 2025".data,
   "March 30, 2025".data, "Hard".data, "Outdoor".data, [], [], "ATP Tour".data, []⟩

/-- Same key as `rowSampleA`, different winner. -/
def rowSampleB : Row :=
  ⟨"Miami Open".data, "Miami".data, "March 19, 2025".data,
   "March 30, 2025".data, "Hard".data, "Outdoor".data, "X Y".data, [], "ATP Tour".data, []⟩

/-- A modelled network where attempt 0 raises, attempt 1 succeeds. -/
def attSample : Nat → AttemptOutcome := fun i =>
  if i = 1 then .resp 200 "page".data else .exc

/-- A payload with one date carrying one named tournament. -/
def payloadSample : List JsonDate :=
  [⟨[{ Name := some "Miami Open".data, Location := some "Miami".data }]⟩]

/-- The case facts needed to title-case one `re.IGNORECASE`-matched
character: trivially checkable for each concrete pattern character. -/
def titleCaseFacts (k : Char) : Prop :=
  isAlphaPy k = true ∧ isAlphaPy (toLowerPy k) = true ∧
  isAlphaPy (toUpperPy k) = true ∧
  toUpperPy (toLowerPy k) = toUpperPy k ∧ toUpperPy (toUpperPy k) = toUpperPy k ∧
  toLowerPy (toLowerPy k) = toLowerPy k ∧ toLowerPy (toUpperPy k) = toLowerPy k

instance (k : Char) : Decidable (titleCaseFacts k) := by
  unfold titleCaseFacts; infer_instance

/-! ## Claim C4: `dedupe_rows` -/

theorem dedupeGo_length_le (rows : List Row)
    (seen : List (List Char × List Char × List Char × List Char)) :
    (dedupeGo rows seen).length ≤ rows.length := by
  induction rows generalizing seen with
  | nil => simp [dedupeGo]
  | cons r rs ih =>
    simp only [dedupeGo]
    split
    · exact Nat.le_succ_of_le (ih seen)
    · simpa using ih (rowKey r :: seen)

theorem dedupeGo_sublist (rows : List Row)
    (seen : List (List Char × List Char × List Char × List Char)) :
    (dedupeGo rows seen).Sublist rows := by
  induction rows generalizing seen with
  | nil => simp [dedupeGo]
  | cons r rs ih =>
    simp only [dedupeGo]
    split
    · exact (ih seen).cons r
    · exact (ih (rowKey r :: seen)).cons₂ r

theorem mem_dedupeGo {r : Row} {rows : List Row}
    {seen : List (List Char × List Char × List Char × List Char)}
    (h : r ∈ dedupeGo rows seen) : r ∈ rows ∧ rowKey r ∉ seen := by
  induction rows generalizing seen with
  | nil => simp [dedupeGo] at h
  | cons r0 rs ih =>
    simp only [dedupeGo] at h
    split at h
    · obtain ⟨h1, h2⟩ := ih h
      exact ⟨List.mem_cons_of_mem _ h1, h2⟩
    · rcases List.mem_cons.mp h with rfl | hmem
      · exact ⟨List.mem_cons_self _ _, by assumption⟩
      · obtain ⟨h1, h2⟩ := ih hmem
        refine ⟨List.mem_cons_of_mem _ h1, fun hc => h2 ?_⟩
        exact List.mem_cons_of_mem _ hc

theorem dedupeGo_nodup_keys (rows : List Row)
    (seen : List (List Char × List Char × List Char × List Char)) :
    ((dedupeGo rows seen).map rowKey).Nodup := by
  induction rows generalizing seen with
  | nil => simp [dedupeGo]
  | cons r rs ih =>
    simp only [dedupeGo]
    split
    · exact ih seen
    · refine List.nodup_cons.mpr ⟨?_, ih (rowKey r :: seen)⟩
      intro hc
      obtain ⟨r2, hr2, hk⟩ := List.mem_map.mp hc
      exact (mem_dedupeGo hr2).2 (by simp [hk])

theorem dedupeGo_first {r : Row} {rows : List Row}
    {seen : List (List Char × List Char × List Char × List Char)}
    (h : r ∈ dedupeGo rows seen) : firstWithKey rows (rowKey r) = some r := by
  induction rows generalizing seen with
  | nil => simp [dedupeGo] at h
  | cons r0 rs ih =>
    simp only [dedupeGo] at h
    simp only [firstWithKey, List.find?_cons]
    split at h
    · have hne : rowKey r0 ≠ rowKey r := by
        intro he
        exact (mem_dedupeGo h).2 (he ▸ (by assumption))
      have : (decide (rowKey r0 = rowKey r)) = false := by
        simpa using hne
      rw [this]
      exact ih h
    · rcases List.mem_cons.mp h with rfl | hmem
      · simp
      · have hr2 := mem_dedupeGo hmem
        have hne : rowKey r0 ≠ rowKey r := by
          intro he
          exact hr2.2 (by simp [he])
        have : (decide (rowKey r0 = rowKey r)) = false := by
          simpa using hne
        rw [this]
        exact ih hmem

theorem dedupeGo_covers {r : Row} {rows : List Row}
    {seen : List (List Char × List Char × List Char × List Char)}
    (h : r ∈ rows) (hs : rowKey r ∉ seen) :
    ∃ r0 ∈ dedupeGo rows seen, rowKey r0 = rowKey r := by
  induction rows generalizing seen with
  | nil => simp at h
  | cons r0 rs ih =>
    simp only [dedupeGo]
    rcases List.mem_cons.mp h with rfl | hmem
    · split
      · exact absurd (by assumption) hs
      · exact ⟨r, List.mem_cons_self _ _, rfl⟩
    · split
      · exact ih hmem hs
      · by_cases hk : rowKey r0 = rowKey r
        · exact ⟨r0, List.mem_cons_self _ _, hk⟩
        · obtain ⟨r1, hr1, hk1⟩ := ih hmem (by
            intro hc
            rcases List.mem_cons.mp hc with he | he
            · exact hk he.symm
            · exact hs he)
          exact ⟨r1, List.mem_cons_of_mem _ hr1, hk1⟩

/-- Claim C4: for every input sequence of records, `dedupe_rows` returns an
output whose length is at most the input length, which is a subsequence of
the input (first-seen order), in which no two records share a
`(name, location, start_date, end_date)` key, every output record is the
first input record carrying its key, and every distinct input key is
represented. -/
theorem C4_dedupe_rows_spec (rows : List Row) :
    (dedupe_rows rows).length ≤ rows.length ∧
    (dedupe_rows rows).Sublist rows ∧
    ((dedupe_rows rows).map rowKey).Nodup ∧
    (∀ r ∈ dedupe_rows rows, firstWithKey rows (rowKey r) = some r) ∧
    (∀ r ∈ rows, ∃ r0 ∈ dedupe_rows rows, rowKey r0 = rowKey r) := by
  refine ⟨dedupeGo_length_le rows [], dedupeGo_sublist rows [],
    dedupeGo_nodup_keys rows [], fun r hr => dedupeGo_first hr,
    fun r hr => dedupeGo_covers hr (by simp)⟩



/-- Witness for C4 at a concrete duplicate-key input. -/
theorem C4_dedupe_rows_spec_witness :
    rowSampleB ∈ [rowSampleA, rowSampleB] ∧
    ∃ r0 ∈ dedupe_rows [rowSampleA, rowSampleB], rowKey r0 = rowKey rowSampleB := by
  exact ⟨by decide, (C4_dedupe_rows_spec [rowSampleA, rowSampleB]).2.2.2.2
    rowSampleB (by decide)⟩

/-! ## Claim C8: `fetch` -/

theorem fetchLoop_all_bad (att : Nat → AttemptOutcome) :
    ∀ n i, (∀ k, i ≤ k → k < i + n → goodOutcome (att k) = false) →
    fetchLoop att n i = (none, List.range' (i + 1) n) := by
  intro n
  induction n with
  | zero => intro i _; simp [fetchLoop]
  | succ n ih =>
    intro i hbad
    have hi : goodOutcome (att i) = false := hbad i (Nat.le_refl i) (by omega)
    simp only [fetchLoop, hi, Bool.false_eq_true, if_false, List.range'_succ]
    rw [ih (i + 1) (fun k hk1 hk2 => hbad k (by omega) (by omega))]

theorem fetchLoop_first_good (att : Nat → AttemptOutcome) :
    ∀ n i j, i ≤ j → j < i + n → goodOutcome (att j) = true →
    (∀ k, i ≤ k → k < j → goodOutcome (att k) = false) →
    fetchLoop att n i = (some (outcomeBody (att j)), List.range' (i + 1) (j - i)) := by
  intro n
  induction n with
  | zero => intro i j h1 h2; omega
  | succ n ih =>
    intro i j h1 h2 hgood hbad
    rcases Nat.eq_or_lt_of_le h1 with rfl | hlt
    · simp [fetchLoop, hgood]
    · have hi : goodOutcome (att i) = false := hbad i (Nat.le_refl i) hlt
      simp only [fetchLoop, hi, Bool.false_eq_true, if_false]
      rw [ih (i + 1) j (by omega) (by omega) hgood
        (fun k hk1 hk2 => hbad k (by omega) hk2)]
      have : j - i = (j - (i + 1)) + 1 := by omega
      rw [this, List.range'_succ]

/-- Claim C8: over any modelled sequence of per-attempt outcomes, `fetch`
returns the body of the first attempt (within the `RETRY` limit) whose
status is a 2xx success and whose body is non-empty, having slept with
multipliers `1, …, j` (of `SLEEP_BETWEEN`) for the `j` failed attempts
before it; and when no attempt within the limit is such a success it
returns `none` after sleeping with multipliers `1, 2, 3`. -/
theorem C8_fetch_spec (att : Nat → AttemptOutcome) :
    (∀ j, j < RETRY → goodOutcome (att j) = true →
      (∀ i, i < j → goodOutcome (att i) = false) →
      fetch att = (some (outcomeBody (att j)), List.range' 1 j)) ∧
    ((∀ i, i < RETRY → goodOutcome (att i) = false) →
      fetch att = (none, [1, 2, 3])) := by
  constructor
  · intro j hj hgood hbad
    have := fetchLoop_first_good att RETRY 0 j (Nat.zero_le j) (by omega) hgood
      (fun k _ hk2 => hbad k hk2)
    simpa using this
  · intro hbad
    have := fetchLoop_all_bad att RETRY 0 (fun k _ hk2 => hbad k (by omega))
    simpa [List.range'] using this



/-- Witness for C8: the success on the second attempt is returned after one
sleep of multiplier 1. -/
theorem C8_fetch_spec_witness :
    fetch attSample = (some "page".data, [1]) := by
  have h := (C8_fetch_spec attSample).1 1 (by decide) (by decide)
    (by decide)
  simpa [attSample, outcomeBody] using h

/-! ## Claims C9 and C10: the JSON extractor and the fallback -/

theorem mem_jsonTournLoop {winnerOf : List Char → List Char}
    {url lbl : List Char} {r : Row} :
    ∀ {ts : List JsonTournament}
      {seen : List (List Char × List Char × List Char × List Char)},
    r ∈ (jsonTournLoop winnerOf url lbl ts seen).1 →
    ∃ t ∈ ts, r.name = normalize_ws (t.Name.getD []) ∧
      r.surface = normalize_ws (t.Surface.getD []) ∧ r.name ≠ [] := by
  intro ts
  induction ts with
  | nil => intro seen h; simp [jsonTournLoop] at h
  | cons t ts ih =>
    intro seen h
    simp only [jsonTournLoop] at h
    split at h
    · obtain ⟨t2, ht2, hp⟩ := ih h
      exact ⟨t2, List.mem_cons_of_mem _ ht2, hp⟩
    · rename_i hguard
      rcases List.mem_cons.mp h with rfl | hmem
      · refine ⟨t, List.mem_cons_self _ _, rfl, rfl, ?_⟩
        obtain ⟨-, hg⟩ : _ ∧ ¬ normalize_ws (t.Name.getD []) = [] := by
          simpa using hguard
        exact hg
      · obtain ⟨t2, ht2, hp⟩ := ih hmem
        exact ⟨t2, List.mem_cons_of_mem _ ht2, hp⟩

theorem mem_jsonDatesLoop {winnerOf : List Char → List Char}
    {url lbl : List Char} {r : Row} :
    ∀ {ds : List JsonDate}
      {seen : List (List Char × List Char × List Char × List Char)},
    r ∈ jsonDatesLoop winnerOf url lbl ds seen →
    ∃ d ∈ ds, ∃ t ∈ d.Tournaments, r.name = normalize_ws (t.Name.getD []) ∧
      r.surface = normalize_ws (t.Surface.getD []) ∧ r.name ≠ [] := by
  intro ds
  induction ds with
  | nil => intro seen h; simp [jsonDatesLoop] at h
  | cons d ds ih =>
    intro seen h
    simp only [jsonDatesLoop] at h
    rcases List.mem_append.mp h with hmem | hmem
    · obtain ⟨t, ht, hp⟩ := mem_jsonTournLoop hmem
      exact ⟨d, List.mem_cons_self _ _, t, ht, hp⟩
    · obtain ⟨d2, hd2, hp⟩ := ih hmem
      exact ⟨d2, List.mem_cons_of_mem _ hd2, hp⟩

theorem mem_parse_calendar_json_rows {winnerOf : List Char → List Char}
    {url lbl : List Char} {dates : List JsonDate} {r : Row}
    (h : r ∈ parse_calendar_json_rows winnerOf url lbl dates) :
    ∃ d ∈ dates, ∃ t ∈ d.Tournaments, r.name = normalize_ws (t.Name.getD []) ∧
      r.surface = normalize_ws (t.Surface.getD []) ∧ r.name ≠ [] := by
  exact mem_jsonDatesLoop (mem_dedupeGo h).1

/-- Claim C10: every record returned by the JSON extractor has a non-empty
name (tournament entries whose normalized `Name` is empty are dropped). -/
theorem C10_json_rows_name_nonempty (winnerOf : List Char → List Char)
    (url lbl : List Char) (dates : List JsonDate) :
    ∀ r ∈ parse_calendar_json_rows winnerOf url lbl dates, r.name ≠ [] := by
  intro r hr
  obtain ⟨-, -, -, -, -, -, hne⟩ := mem_parse_calendar_json_rows hr
  exact hne



/-- Witness for C10 at a concrete payload. -/
theorem C10_json_rows_name_nonempty_witness :
    ∃ r ∈ parse_calendar_json_rows (fun _ => []) "u".data "ATP Tour".data
      payloadSample, r.name ≠ [] := by
  refine ⟨⟨"Miami Open".data, "Miami".data, [], [], [], [], [], [], "ATP Tour".data,
    "u".data⟩, by decide, ?_⟩
  exact C10_json_rows_name_nonempty (fun _ => []) "u".data "ATP Tour".data
    payloadSample _ (by decide)

theorem jsonTournLoop_nil_tournaments (winnerOf : List Char → List Char)
    (url lbl : List Char)
    (seen : List (List Char × List Char × List Char × List Char)) :
    jsonTournLoop winnerOf url lbl [] seen = ([], seen) := rfl

/-- Claim C9: a JSON payload in which every listed date entry has zero
tournament entries yields an empty record list, and for each category the
orchestrator's `json or html` falls back to the HTML rows exactly when the
JSON path yields zero records. -/
theorem C9_empty_payload_falls_back (winnerOf : List Char → List Char)
    (url lbl : List Char) (dates : List JsonDate) (htmlRows : List Row) :
    ((∀ d ∈ dates, d.Tournaments = []) →
      parse_calendar_json_rows winnerOf url lbl dates = [] ∧
      jsonOrHtml (parse_calendar_json_rows winnerOf url lbl dates) htmlRows =
        htmlRows) ∧
    (∀ jsonRows : List Row, jsonRows ≠ [] →
      jsonOrHtml jsonRows htmlRows = jsonRows) := by
  constructor
  · intro hempty
    have hloop : ∀ (ds : List JsonDate)
        (seen : List (List Char × List Char × List Char × List Char)),
        (∀ d ∈ ds, d.Tournaments = []) →
        jsonDatesLoop winnerOf url lbl ds seen = [] := by
      intro ds
      induction ds with
      | nil => intro seen _; rfl
      | cons d ds ih =>
        intro seen hds
        have hd : d.Tournaments = [] := hds d (List.mem_cons_self _ _)
        simp only [jsonDatesLoop, hd, jsonTournLoop_nil_tournaments]
        simpa using ih seen (fun d2 hd2 => hds d2 (List.mem_cons_of_mem _ hd2))
    have hmain : parse_calendar_json_rows winnerOf url lbl dates = [] := by
      unfold parse_calendar_json_rows
      rw [hloop dates [] hempty]
      rfl
    exact ⟨hmain, by simp [hmain, jsonOrHtml]⟩
  · intro jsonRows hne
    simp [jsonOrHtml, hne]

/-- Witness for C9 at a concrete all-empty payload. -/
theorem C9_empty_payload_falls_back_witness :
    parse_calendar_json_rows (fun _ => []) "u".data "ITF".data [⟨[]⟩, ⟨[]⟩] = [] ∧
    jsonOrHtml (parse_calendar_json_rows (fun _ => []) "u".data "ITF".data
      [⟨[]⟩, ⟨[]⟩]) [rowSampleA] = [rowSampleA] := by
  exact (C9_empty_payload_falls_back (fun _ => []) "u".data "ITF".data
    [⟨[]⟩, ⟨[]⟩] [rowSampleA]).1 (by decide)

/-! ## Claim C3: surface fields -/

theorem stripLitCI_nil {s m r : List Char}
    (h : stripLitCI [] s = some (m, r)) : m = [] ∧ r = s := by
  simp only [stripLitCI] at h
  exact ⟨(Prod.mk.injEq _ _ _ _ ▸ (Option.some.injEq _ _ ▸ h) : _ ∧ _).1.symm,
    ((Prod.mk.injEq _ _ _ _ ▸ (Option.some.injEq _ _ ▸ h) : _ ∧ _)).2.symm⟩

theorem stripLitCI_cons {k : Char} {ks s m r : List Char}
    (h : stripLitCI (k :: ks) s = some (m, r)) :
    ∃ c s2 m2, s = c :: s2 ∧ m = c :: m2 ∧ charCI k c = true ∧
      stripLitCI ks s2 = some (m2, r) := by
  cases s with
  | nil => simp [stripLitCI] at h
  | cons c s2 =>
    simp only [stripLitCI] at h
    by_cases hci : charCI k c = true
    · rw [if_pos hci] at h
      cases hp : stripLitCI ks s2 with
      | none => rw [hp] at h; exact absurd h (by simp)
      | some p =>
        obtain ⟨m2, r2⟩ := p
        rw [hp] at h
        simp only [Option.some.injEq, Prod.mk.injEq] at h
        obtain ⟨rfl, rfl⟩ := h
        exact ⟨c, s2, m2, rfl, rfl, hci, hp⟩
    · rw [if_neg hci] at h
      exact absurd h (by simp)



theorem pyTitleGo_of_stripLitCI :
    ∀ {kw s m r : List Char}, stripLitCI kw s = some (m, r) →
    (∀ k ∈ kw, titleCaseFacts k) → ∀ b, pyTitleGo b m = pyTitleGo b kw := by
  intro kw
  induction kw with
  | nil =>
    intro s m r h _ b
    rw [(stripLitCI_nil h).1]
  | cons k ks ih =>
    intro s m r h hf b
    obtain ⟨c, s2, m2, rfl, rfl, hci, h2⟩ := stripLitCI_cons h
    obtain ⟨hka, hla, hua, huu1, huu2, hll1, hll2⟩ :=
      hf k (List.mem_cons_self _ _)
    have hrec := ih h2 (fun k2 hk2 => hf k2 (List.mem_cons_of_mem _ hk2)) true
    have hcase : c = toLowerPy k ∨ c = toUpperPy k := by
      simpa [charCI] using hci
    rcases hcase with rfl | rfl
    · simp only [pyTitleGo, hla, hka, if_true, hrec, huu1, hll1]
    · simp only [pyTitleGo, hua, hka, if_true, hrec, huu2, hll2]

theorem altsAtCI_some {alts : List (List Char)} {s m : List Char}
    (h : altsAtCI alts s = some m) :
    ∃ kw ∈ alts, ∃ r, stripLitCI kw s = some (m, r) := by
  induction alts with
  | nil => simp [altsAtCI] at h
  | cons a rest ih =>
    simp only [altsAtCI] at h
    cases hp : stripLitCI a s with
    | some p =>
      obtain ⟨m2, r2⟩ := p
      rw [hp] at h
      simp only [Option.some.injEq] at h
      subst h
      exact ⟨a, List.mem_cons_self _ _, r2, hp⟩
    | none =>
      rw [hp] at h
      obtain ⟨kw, hkw, hr⟩ := ih h
      exact ⟨kw, List.mem_cons_of_mem _ hkw, hr⟩

theorem searchAltsCI_some {alts : List (List Char)} :
    ∀ {s m : List Char}, searchAltsCI alts s = some m →
    ∃ s2, altsAtCI alts s2 = some m := by
  intro s
  induction s with
  | nil => intro m h; exact ⟨[], h⟩
  | cons c cs ih =>
    intro m h
    simp only [searchAltsCI] at h
    split at h
    · cases h; rename_i hp; exact ⟨c :: cs, hp⟩
    · exact ih h

theorem surface_of_search {t m : List Char}
    (h : searchAltsCI surfaceKeywords t = some m) :
    pyTitle m ∈ surfaceKeywords := by
  obtain ⟨s2, h2⟩ := searchAltsCI_some h
  obtain ⟨kw, hkw, r, hr⟩ := altsAtCI_some h2
  have hfacts : ∀ k ∈ kw, titleCaseFacts k := by
    fin_cases hkw <;> decide
  have := pyTitleGo_of_stripLitCI hr hfacts false
  unfold pyTitle
  rw [this]
  fin_cases hkw <;> decide

/-- Counterexample to claim C3 as stated: a JSON tournament whose payload
`Surface` field is `"Sand"` produces a record whose surface is `"Sand"`,
which is neither empty nor in the known set
Hard/Clay/Grass/Carpet/Acrylic/Synthetic. -/
theorem C3_counterexample :
    ∃ r ∈ parse_calendar_json_rows (fun _ => []) "u".data "ATP Tour".data
      [⟨[{ Name := some "Beach Open".data, Surface := some "Sand".data }]⟩],
      r.surface ≠ [] ∧ r.surface ∉ surfaceKeywords := by
  refine ⟨⟨"Beach Open".data, [], [], [], "Sand".data, [], [], [], "ATP Tour".data,
    "u".data⟩, by decide, by decide, by decide⟩

/-- Claim C3 (amended): every surface value produced by the HTML path's
`try_extract_surface_text` is empty or one of the title-cased known set
Hard/Clay/Grass/Carpet/Acrylic/Synthetic; the JSON path instead copies the
payload's `Surface` field through whitespace normalization only, with no
membership constraint. -/
theorem C3_surface_fields (text : List Char) (winnerOf : List Char → List Char)
    (url lbl : List Char) (dates : List JsonDate) :
    ((try_extract_surface_text text).1 = [] ∨
      (try_extract_surface_text text).1 ∈ surfaceKeywords) ∧
    (∀ r ∈ parse_calendar_json_rows winnerOf url lbl dates,
      ∃ d ∈ dates, ∃ t ∈ d.Tournaments,
        r.surface = normalize_ws (t.Surface.getD [])) := by
  constructor
  · unfold try_extract_surface_text
    cases hs : searchAltsCI surfaceKeywords (normalize_ws text) with
    | none => left; simp [hs]
    | some m => right; simpa [hs] using surface_of_search hs
  · intro r hr
    obtain ⟨d, hd, t, ht, -, hsurf, -⟩ := mem_parse_calendar_json_rows hr
    exact ⟨d, hd, t, ht, hsurf⟩

/-- Witness for C3 (amended) at concrete inputs. -/
theorem C3_surface_fields_witness :
    ((try_extract_surface_text "played on CLAY, outdoors".data).1 = [] ∨
      (try_extract_surface_text "played on CLAY, outdoors".data).1 ∈
        surfaceKeywords) ∧
    ∃ r ∈ parse_calendar_json_rows (fun _ => []) "u".data "ATP Tour".data
      payloadSample, ∃ d ∈ payloadSample, ∃ t ∈ d.Tournaments,
        r.surface = normalize_ws (t.Surface.getD []) := by
  refine ⟨(C3_surface_fields "played on CLAY, outdoors".data (fun _ => [])
    "u".data "ATP Tour".data payloadSample).1, ?_⟩
  refine ⟨⟨"Miami Open".data, "Miami".data, [], [], [], [], [], [], "ATP Tour".data,
    "u".data⟩, by decide, ?_⟩
  exact (C3_surface_fields "played on CLAY, outdoors".data (fun _ => [])
    "u".data "ATP Tour".data payloadSample).2 _ (by decide)

/-! ## Claims C5 and C6: concrete date examples -/

/-- Claim C5: on `"Indian Wells | March 6-16, 2025"`,
`split_location_and_date` followed by `parse_date_range` yields location
`"Indian Wells"`, start `"March 6, 2025"` and end `"March 16, 2025"`. -/
theorem C5_indian_wells_example :
    (split_location_and_date "Indian Wells | March 6-16, 2025".data).1 =
      "Indian Wells".data ∧
    parse_date_range (split_location_and_date
      "Indian Wells | March 6-16, 2025".data).2 =
      ("March 6, 2025".data, "March 16, 2025".data) := by
  constructor
  · decide
  · decide

/-- Claim C6: on `"27 December, 2024 - 5 January, 2025"`,
`parse_formatted_date_range` returns start `"December 27, 2024"` and end
`"January 5, 2025"`. -/
theorem C6_formatted_date_example :
    parse_formatted_date_range "27 December, 2024 - 5 January, 2025".data =
      ("December 27, 2024".data, "January 5, 2025".data) := by
  decide

/-! ## Whitespace-normalization infrastructure

`normalize_ws` agrees with splitting into whitespace-separated words and
rejoining with single spaces; the algebraic facts about normalization used
by claims C1, C2 and C7 go through this characterization. -/

theorem takeWhile_append_cons_neg {p : Char → Bool} {u : List Char}
    (v : List Char) {c : Char} (hu : ∀ a ∈ u, p a = true) (hc : p c = false) :
    (u ++ c :: v).takeWhile p = u := by
  induction u with
  | nil => simp [List.takeWhile_cons, hc]
  | cons a u ih =>
    have ha : p a = true := hu a (List.mem_cons_self _ _)
    simp [List.takeWhile_cons, ha,
      ih (fun b hb => hu b (List.mem_cons_of_mem _ hb))]

theorem dropWhile_append_cons_neg {p : Char → Bool} {u : List Char}
    (v : List Char) {c : Char} (hu : ∀ a ∈ u, p a = true) (hc : p c = false) :
    (u ++ c :: v).dropWhile p = c :: v := by
  induction u with
  | nil => simp [List.dropWhile_cons, hc]
  | cons a u ih =>
    have ha : p a = true := hu a (List.mem_cons_self _ _)
    simp [List.dropWhile_cons, ha,
      ih (fun b hb => hu b (List.mem_cons_of_mem _ hb))]

theorem dropWhile_all_pos {p : Char → Bool} {u : List Char}
    (v : List Char) (hu : ∀ a ∈ u, p a = true) :
    (u ++ v).dropWhile p = v.dropWhile p := by
  induction u with
  | nil => rfl
  | cons a u ih =>
    have ha : p a = true := hu a (List.mem_cons_self _ _)
    simp [List.dropWhile_cons, ha,
      ih (fun b hb => hu b (List.mem_cons_of_mem _ hb))]

theorem dropWhile_all_neg {p : Char → Bool} {u : List Char}
    (hu : ∀ a ∈ u, p a = false) : u.dropWhile p = u := by
  cases u with
  | nil => rfl
  | cons a u =>
    have ha : p a = false := hu a (List.mem_cons_self _ _)
    simp [List.dropWhile_cons, ha]

theorem length_dropWhile_le_self (p : Char → Bool) (l : List Char) :
    (l.dropWhile p).length ≤ l.length := by
  induction l with
  | nil => simp
  | cons a l ih =>
    by_cases h : p a = true
    · rw [List.dropWhile_cons_of_pos h]
      exact Nat.le_succ_of_le ih
    · rw [List.dropWhile_cons_of_neg h]

theorem dropWhile_ne_nil_of_exists {p : Char → Bool} {u : List Char}
    (hu : ∃ a ∈ u, p a = false) : u.dropWhile p ≠ [] := by
  induction u with
  | nil => simp at hu
  | cons a u ih =>
    obtain ⟨b, hb, hpb⟩ := hu
    by_cases ha : p a = true
    · rcases List.mem_cons.mp hb with rfl | hb2
      · rw [ha] at hpb; cases hpb
      · simpa [List.dropWhile_cons, ha] using ih ⟨b, hb2, hpb⟩
    · simp [List.dropWhile_cons, ha]

theorem dropWhile_append_of_ne_nil {p : Char → Bool} {u : List Char}
    (v : List Char) (hu : u.dropWhile p ≠ []) :
    (u ++ v).dropWhile p = u.dropWhile p ++ v := by
  induction u with
  | nil => simp at hu
  | cons a u ih =>
    by_cases ha : p a = true
    · rw [List.cons_append, List.dropWhile_cons_of_pos ha,
        List.dropWhile_cons_of_pos ha]
      exact ih (by simpa [List.dropWhile_cons_of_pos ha] using hu)
    · rw [List.cons_append, List.dropWhile_cons_of_neg (by simp [ha]),
        List.dropWhile_cons_of_neg (by simp [ha])]
      simp

theorem collapseWs_nonws_front {u : List Char} (y : List Char)
    (hu : ∀ a ∈ u, isWsPy a = false) :
    collapseWs (u ++ y) = u ++ collapseWs y := by
  induction u with
  | nil => rfl
  | cons a u ih =>
    have ha := hu a (List.mem_cons_self _ _)
    show collapseWs (a :: (u ++ y)) = a :: (u ++ collapseWs y)
    rw [← ih (fun b hb => hu b (List.mem_cons_of_mem _ hb))]
    cases hcs : u ++ y with
    | nil => simp [collapseWs, ha, hcs]
    | cons c2 cs2 => simp [collapseWs, ha, hcs]

theorem collapseWs_head_nonws {c : Char} (t : List Char)
    (hc : isWsPy c = false) : collapseWs (c :: t) = c :: collapseWs t := by
  cases t with
  | nil => simp [collapseWs, hc]
  | cons c2 t2 => simp [collapseWs, hc]

theorem collapseWs_wsrun_front {w : List Char} {c0 : Char} (t' : List Char)
    (hw : w ≠ []) (hws : ∀ a ∈ w, isWsPy a = true) (hc0 : isWsPy c0 = false) :
    collapseWs (w ++ c0 :: t') = ' ' :: collapseWs (c0 :: t') := by
  induction w with
  | nil => exact absurd rfl hw
  | cons a w ih =>
    have ha := hws a (List.mem_cons_self _ _)
    cases w with
    | nil => simp [collapseWs, ha, hc0]
    | cons b w2 =>
      have hb := hws b (List.mem_cons_of_mem _ (List.mem_cons_self _ _))
      show collapseWs (a :: ((b :: w2) ++ c0 :: t')) = _
      rw [← ih (by simp) (fun x hx => hws x (List.mem_cons_of_mem _ hx))]
      simp [collapseWs, ha, hb]

theorem collapseWs_all_ws {w : List Char} (hw : w ≠ [])
    (hws : ∀ a ∈ w, isWsPy a = true) : collapseWs w = [' '] := by
  induction w with
  | nil => exact absurd rfl hw
  | cons a w ih =>
    have ha := hws a (List.mem_cons_self _ _)
    cases w with
    | nil => simp [collapseWs, ha]
    | cons b w2 =>
      have hb := hws b (List.mem_cons_of_mem _ (List.mem_cons_self _ _))
      rw [← ih (by simp) (fun x hx => hws x (List.mem_cons_of_mem _ hx))]
      simp [collapseWs, ha, hb]

theorem stripTrailWs_append {x y : List Char}
    (hy : ∃ c ∈ y, isWsPy c = false) :
    stripTrailWs (x ++ y) = x ++ stripTrailWs y := by
  have hne : y.reverse.dropWhile isWsPy ≠ [] := by
    obtain ⟨c, hc, hpc⟩ := hy
    exact dropWhile_ne_nil_of_exists ⟨c, List.mem_reverse.mpr hc, hpc⟩
  unfold stripTrailWs
  rw [List.reverse_append, dropWhile_append_of_ne_nil _ hne,
    List.reverse_append, List.reverse_reverse]

theorem stripTrailWs_nonws_ws {u z : List Char}
    (hu : ∀ a ∈ u, isWsPy a = false) (hz : ∀ a ∈ z, isWsPy a = true) :
    stripTrailWs (u ++ z) = u := by
  unfold stripTrailWs
  rw [List.reverse_append,
    dropWhile_all_pos _ (fun a ha => hz a (List.mem_reverse.mp ha)),
    dropWhile_all_neg (fun a ha => hu a (List.mem_reverse.mp ha)),
    List.reverse_reverse]

theorem pyWordsGo_nonws {u : List Char} (acc x : List Char)
    (hu : ∀ a ∈ u, isWsPy a = false) :
    pyWordsGo acc (u ++ x) = pyWordsGo (u.reverse ++ acc) x := by
  induction u generalizing acc with
  | nil => simp
  | cons a u ih =>
    have ha := hu a (List.mem_cons_self _ _)
    show pyWordsGo acc (a :: (u ++ x)) = _
    simp only [pyWordsGo, ha, Bool.false_eq_true, if_false]
    rw [ih (a :: acc) (fun b hb => hu b (List.mem_cons_of_mem _ hb))]
    simp

theorem pyWords_ws_cons {c : Char} (x : List Char) (hc : isWsPy c = true) :
    pyWords (c :: x) = pyWords x := by
  simp [pyWords, pyWordsGo, hc]

theorem pyWords_word_front {u x : List Char} (hu0 : u ≠ [])
    (hu : ∀ a ∈ u, isWsPy a = false)
    (hx : x = [] ∨ ∃ w x2, x = w :: x2 ∧ isWsPy w = true) :
    pyWords (u ++ x) = u :: pyWords x := by
  unfold pyWords
  rw [pyWordsGo_nonws [] x hu]
  rcases hx with rfl | ⟨w, x2, rfl, hw⟩
  · simp [pyWordsGo, hu0]
  · have h1 : u.reverse.isEmpty = false := by
      simp [List.isEmpty_iff, hu0]
    simp [pyWordsGo, hw, h1, pyWords]

theorem pyWords_eq_nil_of_all_ws {x : List Char}
    (hx : ∀ a ∈ x, isWsPy a = true) : pyWords x = [] := by
  induction x with
  | nil => rfl
  | cons a x ih =>
    have ha := hx a (List.mem_cons_self _ _)
    rw [pyWords_ws_cons _ ha]
    exact ih (fun b hb => hx b (List.mem_cons_of_mem _ hb))

theorem pyWords_wsrun_front {w x : List Char}
    (hw : ∀ a ∈ w, isWsPy a = true) : pyWords (w ++ x) = pyWords x := by
  induction w with
  | nil => rfl
  | cons a w ih =>
    have ha := hw a (List.mem_cons_self _ _)
    show pyWords (a :: (w ++ x)) = _
    rw [pyWords_ws_cons _ ha]
    exact ih (fun b hb => hw b (List.mem_cons_of_mem _ hb))

theorem pyWords_head_nonws_ne_nil {c : Char} {x : List Char}
    (hc : isWsPy c = false) : pyWords (c :: x) ≠ [] := by
  have hsplit : c :: x =
      (c :: x.takeWhile (fun a => !isWsPy a)) ++ x.dropWhile (fun a => !isWsPy a) := by
    simp [List.takeWhile_append_dropWhile]
  rw [hsplit, pyWords_word_front (by simp)
    (by
      intro a ha
      rcases List.mem_cons.mp ha with rfl | ha2
      · exact hc
      · simpa using List.mem_takeWhile_imp ha2)
    (by
      cases hd : x.dropWhile (fun a => !isWsPy a) with
      | nil => exact Or.inl rfl
      | cons w x2 =>
        refine Or.inr ⟨w, x2, rfl, ?_⟩
        have := List.head?_dropWhile_not (fun a => !isWsPy a) x
        rw [hd] at this
        simpa using this)]
  simp

theorem joinSp_cons_of_ne_nil {w : List Char} {ws : List (List Char)}
    (h : ws ≠ []) : joinSp (w :: ws) = w ++ ' ' :: joinSp ws := by
  cases ws with
  | nil => exact absurd rfl h
  | cons w2 ws2 => rfl

/-- `normalize_ws` splits into whitespace-separated words and rejoins them
with single spaces. -/
theorem normWs_eq_joinSp (s : List Char) :
    normalize_ws s = joinSp (pyWords s) := by
  suffices h : ∀ n (s : List Char), s.length ≤ n →
      normalize_ws s = joinSp (pyWords s) from h s.length s (Nat.le_refl _)
  intro n
  induction n with
  | zero =>
    intro s hs
    have : s = [] := List.eq_nil_of_length_eq_zero (Nat.le_zero.mp hs)
    subst this
    rfl
  | succ n ih =>
    intro s hs
    cases s with
    | nil => rfl
    | cons c cs =>
      by_cases hc : isWsPy c = true
      · have h1 : normalize_ws (c :: cs) = normalize_ws cs := by
          cases cs with
          | nil =>
            show normalize_ws [c] = normalize_ws []
            unfold normalize_ws stripLeadWs stripTrailWs
            rw [show collapseWs [c] = [' '] by simp [collapseWs, hc]]
            decide
          | cons c2 cs2 =>
            by_cases hc2 : isWsPy c2 = true
            · simp [normalize_ws, collapseWs, hc, hc2]
            · have : collapseWs (c :: c2 :: cs2) = ' ' :: collapseWs (c2 :: cs2) := by
                simp [collapseWs, hc, hc2]
              simp [normalize_ws, this, stripLeadWs, List.dropWhile_cons,
                show isWsPy ' ' = true from rfl]
        rw [h1, pyWords_ws_cons _ hc]
        exact ih cs (by simpa using hs)
      · -- non-whitespace head: peel off the first word
        replace hc : isWsPy c = false := by simpa using hc
        set u := c :: cs.takeWhile (fun a => !isWsPy a) with hu_def
        set x := cs.dropWhile (fun a => !isWsPy a) with hx_def
        have hsplit : c :: cs = u ++ x := by
          simp [hu_def, hx_def, List.takeWhile_append_dropWhile]
        have hu : ∀ a ∈ u, isWsPy a = false := by
          intro a ha
          rcases List.mem_cons.mp ha with rfl | ha2
          · exact hc
          · simpa using List.mem_takeWhile_imp ha2
        have hxhead : x = [] ∨ ∃ w x2, x = w :: x2 ∧ isWsPy w = true := by
          cases hd : x with
          | nil => exact Or.inl rfl
          | cons w x2 =>
            refine Or.inr ⟨w, x2, rfl, ?_⟩
            have := List.head?_dropWhile_not (fun a => !isWsPy a) cs
            rw [← hx_def, hd] at this
            simpa using this
        have hwords : pyWords (c :: cs) = u :: pyWords x := by
          rw [hsplit]
          exact pyWords_word_front (by simp [hu_def]) hu hxhead
        have hxlen : x.length ≤ cs.length := by
          rw [hx_def]
          exact length_dropWhile_le_self (fun a => !isWsPy a) cs
        by_cases hxall : ∀ a ∈ x, isWsPy a = true
        · -- the rest is all whitespace: single-word result
          have hz : ∀ a ∈ collapseWs x, isWsPy a = true := by
            cases hx0 : x with
            | nil => simp [collapseWs]
            | cons w x2 =>
              rw [collapseWs_all_ws (by simp) (hx0 ▸ hxall)]
              intro a ha
              simp only [List.mem_singleton] at ha
              subst ha
              rfl
          have : normalize_ws (c :: cs) = u := by
            rw [hsplit]
            show stripTrailWs (stripLeadWs (collapseWs (u ++ x))) = u
            rw [collapseWs_nonws_front _ hu]
            rw [show stripLeadWs (u ++ collapseWs x) = u ++ collapseWs x by
              unfold stripLeadWs
              rw [hu_def, List.cons_append,
                List.dropWhile_cons_of_neg (by simp [hc]), ← List.cons_append]]
            exact stripTrailWs_nonws_ws hu hz
          rw [this, hwords, pyWords_eq_nil_of_all_ws hxall]
          rfl
        · -- the rest contains another word
          push_neg at hxall
          obtain ⟨b, hb, hbw⟩ := hxall
          replace hbw : isWsPy b = false := by simpa using hbw
          obtain ⟨w, x2, hx0, hw⟩ : ∃ w x2, x = w :: x2 ∧ isWsPy w = true := by
            rcases hxhead with hxe | h2
            · rw [hxe] at hb
              simp at hb
            · exact h2
          set wsr := x.takeWhile isWsPy with hwsr_def
          set tl := x.dropWhile isWsPy with htl_def
          have hxsplit : x = wsr ++ tl := by
            simp [hwsr_def, htl_def, List.takeWhile_append_dropWhile]
          have hwsr_all : ∀ a ∈ wsr, isWsPy a = true := by
            intro a ha
            exact List.mem_takeWhile_imp (hwsr_def ▸ ha)
          have htl_ne : tl ≠ [] := by
            rw [htl_def]
            exact dropWhile_ne_nil_of_exists ⟨b, hb, hbw⟩
          obtain ⟨t0, t1, htl0⟩ : ∃ t0 t1, tl = t0 :: t1 := by
            cases htl : tl with
            | nil => exact absurd htl htl_ne
            | cons t0 t1 => exact ⟨t0, t1, rfl⟩
          have ht0 : isWsPy t0 = false := by
            have := List.head?_dropWhile_not isWsPy x
            rw [← htl_def, htl0] at this
            simpa using this
          have hwsr_ne : wsr ≠ [] := by
            rw [hwsr_def, hx0]
            simp [List.takeWhile_cons, hw]
          have hcoll : collapseWs x = ' ' :: collapseWs tl := by
            rw [hxsplit, htl0]
            exact collapseWs_wsrun_front t1 hwsr_ne hwsr_all ht0
          have hctl : collapseWs tl = t0 :: collapseWs t1 := by
            rw [htl0]
            exact collapseWs_head_nonws t1 ht0
          have htl_len : tl.length ≤ n := by
            have h1 : tl.length ≤ x.length := by
              rw [htl_def]
              exact length_dropWhile_le_self isWsPy x
            have h2 : cs.length ≤ n := by simpa using hs
            omega
          have hnorm_tl : normalize_ws tl = joinSp (pyWords tl) := ih tl htl_len
          have hstl : stripTrailWs (collapseWs tl) = normalize_ws tl := by
            have h0 : stripLeadWs (collapseWs tl) = collapseWs tl := by
              unfold stripLeadWs
              rw [hctl]
              exact List.dropWhile_cons_of_neg (by simp [ht0])
            unfold normalize_ws
            rw [h0]
          have hmain : normalize_ws (c :: cs) = u ++ ' ' :: normalize_ws tl := by
            rw [hsplit]
            show stripTrailWs (stripLeadWs (collapseWs (u ++ x))) =
              u ++ ' ' :: normalize_ws tl
            rw [collapseWs_nonws_front _ hu, hcoll]
            rw [show stripLeadWs (u ++ ' ' :: collapseWs tl) =
                u ++ ' ' :: collapseWs tl by
              unfold stripLeadWs
              rw [hu_def, List.cons_append,
                List.dropWhile_cons_of_neg (by simp [hc]), ← List.cons_append]]
            have hex : ∃ a ∈ collapseWs tl, isWsPy a = false := by
              rw [hctl]
              exact ⟨t0, List.mem_cons_self _ _, ht0⟩
            rw [show u ++ ' ' :: collapseWs tl = u ++ [' '] ++ collapseWs tl by
              simp]
            rw [stripTrailWs_append hex, hstl]
            simp
          have hwtl : pyWords x = pyWords tl := by
            rw [hxsplit]
            exact pyWords_wsrun_front hwsr_all
          have hwtl_ne : pyWords tl ≠ [] := by
            rw [htl0]
            exact pyWords_head_nonws_ne_nil ht0
          rw [hmain, hwords, hwtl, hnorm_tl, joinSp_cons_of_ne_nil hwtl_ne]

/-! ## Claim C1: the location/date split and rejoin -/

theorem pyWordsGo_append_ws_end :
    ∀ (l0 acc : List Char) {w : Char} (b : List Char), isWsPy w = true →
    pyWordsGo acc ((l0 ++ [w]) ++ b) =
      pyWordsGo acc (l0 ++ [w]) ++ pyWordsGo [] b := by
  intro l0
  induction l0 with
  | nil =>
    intro acc w b hw
    by_cases ha : acc.isEmpty = true
    · simp [pyWordsGo, hw, ha]
    · simp [pyWordsGo, hw, ha]
  | cons a l0 ih =>
    intro acc w b hw
    show pyWordsGo acc (a :: (l0 ++ [w] ++ b)) =
      pyWordsGo acc (a :: (l0 ++ [w])) ++ pyWordsGo [] b
    by_cases haw : isWsPy a = true
    · by_cases ha : acc.isEmpty = true
      · simp only [pyWordsGo, haw, if_true, ha]
        exact ih [] b hw
      · simp only [pyWordsGo, haw, if_true, ha, Bool.false_eq_true, if_false,
          List.cons_append]
        rw [ih [] b hw]
    · simp only [pyWordsGo, haw, Bool.false_eq_true, if_false]
      exact ih (a :: acc) b hw

theorem pyWords_append_ws_end {l0 : List Char} {w : Char} (b : List Char)
    (hw : isWsPy w = true) :
    pyWords ((l0 ++ [w]) ++ b) = pyWords (l0 ++ [w]) ++ pyWords b := by
  exact pyWordsGo_append_ws_end l0 [] b hw

theorem pyWords_ne_nil_of_exists_nonws {s : List Char}
    (h : ∃ c ∈ s, isWsPy c = false) : pyWords s ≠ [] := by
  induction s with
  | nil => simp at h
  | cons a s ih =>
    obtain ⟨b, hb, hbw⟩ := h
    by_cases ha : isWsPy a = true
    · rw [pyWords_ws_cons _ ha]
      rcases List.mem_cons.mp hb with rfl | hb2
      · rw [ha] at hbw; cases hbw
      · exact ih ⟨b, hb2, hbw⟩
    · exact pyWords_head_nonws_ne_nil (by simpa using ha)

theorem joinSp_append {A B : List (List Char)} (m : List Char)
    (hA : A ≠ []) (hB : B ≠ []) :
    joinSp (A ++ m :: B) = joinSp A ++ ' ' :: (m ++ ' ' :: joinSp B) := by
  induction A with
  | nil => exact absurd rfl hA
  | cons a A ih =>
    cases A with
    | nil =>
      rw [List.singleton_append, joinSp_cons_of_ne_nil (by simp),
        joinSp_cons_of_ne_nil hB]
      rfl
    | cons a2 A2 =>
      rw [List.cons_append, joinSp_cons_of_ne_nil (by simp),
        joinSp_cons_of_ne_nil (by simp), ih (by simp)]
      simp

/-- Counterexample to claim C1 as stated: the input `"a|b"` contains exactly
one pipe, `split_location_and_date` returns `("a", "b")`, but joining the
parts with `" | "` gives `"a | b"` while the whitespace-normalized input is
`"a|b"`. -/
theorem C1_counterexample :
    (∀ c ∈ "a|b".data, c = '|' → "a|b".data.count '|' = 1) ∧
    split_location_and_date "a|b".data = ("a".data, "b".data) ∧
    "a".data ++ " | ".data ++ "b".data ≠ normalize_ws "a|b".data := by
  exact ⟨by decide, by decide, by decide⟩

/-- Claim C1 (amended): for an input with exactly one pipe (written
`l ++ '|' :: r` with pipe-free `l` and `r`), `split_location_and_date`
returns the two whitespace-normalized sides, and joining the two parts with
`" | "` reproduces the whitespace-normalized input provided the pipe is
immediately preceded and followed by whitespace and each side contains a
non-whitespace character (the source glues adjacent text onto the pipe and
drops empty sides, as the counterexample shows). -/
theorem C1_split_rejoin (l r : List Char)
    (hlp : '|' ∉ l) (hrp : '|' ∉ r)
    (hl_end : ∃ l0 w, l = l0 ++ [w] ∧ isWsPy w = true)
    (hr_start : ∃ w r0, r = w :: r0 ∧ isWsPy w = true)
    (hl_nonws : ∃ c ∈ l, isWsPy c = false)
    (hr_nonws : ∃ c ∈ r, isWsPy c = false) :
    split_location_and_date (l ++ '|' :: r) = (normalize_ws l, normalize_ws r) ∧
    normalize_ws l ++ ' ' :: '|' :: ' ' :: normalize_ws r =
      normalize_ws (l ++ '|' :: r) := by
  have hune : ∀ a ∈ l, (a != '|') = true := by
    intro a ha
    have : a ≠ '|' := fun he => hlp (he ▸ ha)
    simpa using this
  constructor
  · have hcont : (l ++ '|' :: r).contains '|' = true := by
      show (l ++ '|' :: r).elem '|' = true
      exact List.elem_eq_true_of_mem (by simp)
    unfold split_location_and_date
    rw [if_pos hcont, takeWhile_append_cons_neg _ hune (by decide),
      dropWhile_append_cons_neg _ hune (by decide), List.tail_cons]
  · obtain ⟨l0, w, rfl, hw⟩ := hl_end
    obtain ⟨w2, r0, rfl, hw2⟩ := hr_start
    have h1 : pyWords ((l0 ++ [w]) ++ '|' :: w2 :: r0) =
        pyWords (l0 ++ [w]) ++ pyWords ('|' :: w2 :: r0) :=
      pyWords_append_ws_end _ hw
    have h2 : pyWords ('|' :: w2 :: r0) = ['|'] :: pyWords (w2 :: r0) := by
      have := pyWords_word_front (u := ['|']) (x := w2 :: r0) (by simp)
        (by
          intro a ha
          simp only [List.mem_singleton] at ha
          subst ha
          rfl)
        (Or.inr ⟨w2, r0, rfl, hw2⟩)
      simpa using this
    have hA : pyWords (l0 ++ [w]) ≠ [] := pyWords_ne_nil_of_exists_nonws hl_nonws
    have hB : pyWords (w2 :: r0) ≠ [] := pyWords_ne_nil_of_exists_nonws hr_nonws
    simp only [normWs_eq_joinSp]
    rw [h1, h2, joinSp_append _ hA hB]
    simp

/-- Witness for C1 (amended) at the concrete input `"a | b"`. -/
theorem C1_split_rejoin_witness :
    split_location_and_date ("a ".data ++ '|' :: " b".data) =
      (normalize_ws "a ".data, normalize_ws " b".data) ∧
    normalize_ws "a ".data ++ ' ' :: '|' :: ' ' :: normalize_ws " b".data =
      normalize_ws ("a ".data ++ '|' :: " b".data) :=
  C1_split_rejoin "a ".data " b".data (by decide) (by decide)
    ⟨"a".data, ' ', by decide, by decide⟩ ⟨' ', "b".data, by decide, by decide⟩
    ⟨'a', by decide, by decide⟩ ⟨'b', by decide, by decide⟩

/-! ## Character-class disjointness -/

theorem ws_chars {c : Char} (h : isWsPy c = true) :
    c = ' ' ∨ c = '\t' ∨ c = '\n' ∨ c = '\r' ∨ c = '\x0b' ∨ c = '\x0c' := by
  have h2 := h
  simp only [isWsPy, Bool.or_eq_true, decide_eq_true_eq] at h2
  tauto

theorem alpha_not_ws {c : Char} (h : isAlphaPy c = true) : isWsPy c = false := by
  by_cases hw : isWsPy c = true
  · rcases ws_chars hw with rfl | rfl | rfl | rfl | rfl | rfl <;>
      exact absurd h (by decide)
  · simpa using hw

theorem digit_not_ws {c : Char} (h : isDigitPy c = true) : isWsPy c = false := by
  by_cases hw : isWsPy c = true
  · rcases ws_chars hw with rfl | rfl | rfl | rfl | rfl | rfl <;>
      exact absurd h (by decide)
  · simpa using hw

theorem digit_not_alpha {c : Char} (h : isDigitPy c = true) :
    isAlphaPy c = false := by
  obtain ⟨-, h9⟩ : '0' ≤ c ∧ c ≤ '9' := by simpa [isDigitPy] using h
  have hA : ¬ 'A' ≤ c := fun hA => absurd (Char.le_trans hA h9) (by decide)
  have ha : ¬ 'a' ≤ c := fun ha => absurd (Char.le_trans ha h9) (by decide)
  simp [isAlphaPy, hA, ha]

theorem alpha_not_digit {c : Char} (h : isAlphaPy c = true) :
    isDigitPy c = false := by
  by_cases hd : isDigitPy c = true
  · rw [digit_not_alpha hd] at h
    cases h
  · simpa using hd

/-! ## Claim C7: canonical "Month D, YYYY" tokens fall through to the
fallback -/

theorem findDateTokensGo_skip_all :
    ∀ (cs : List Char) (k : Nat), cs.length ≤ k → findDateTokensGo k cs = [] := by
  intro cs
  induction cs with
  | nil =>
    intro k _
    cases k <;> rfl
  | cons c cs ih =>
    intro k hk
    cases k with
    | zero => simp at hk
    | succ k => exact ih k (by simpa using hk)

/-- Claim C7: a single token in canonical `"Month D, YYYY"` form (month word
of at least 3 letters, 1-or-2-digit day, comma, 4-digit year, already
whitespace-normalized) falls through the four leading `re.match` patterns of
`parse_date_range` and is returned unchanged as the start with empty end. -/
theorem C7_canonical_token_fallback (mon d y : List Char)
    (hmon : ∀ a ∈ mon, isAlphaPy a = true) (hmon3 : 3 ≤ mon.length)
    (hd : ∀ a ∈ d, isDigitPy a = true) (hd1 : 1 ≤ d.length) (hd2 : d.length ≤ 2)
    (hy : ∀ a ∈ y, isDigitPy a = true) (hy4 : y.length = 4) :
    parse_date_range (mon ++ ' ' :: d ++ ',' :: ' ' :: y) =
      (mon ++ ' ' :: d ++ ',' :: ' ' :: y, []) := by
  rw [show mon ++ ' ' :: d ++ ',' :: ' ' :: y =
    mon ++ ' ' :: (d ++ ',' :: ' ' :: y) by simp]
  obtain ⟨m0, mon', rfl⟩ : ∃ m0 mon', mon = m0 :: mon' := by
    cases mon with
    | nil => simp at hmon3
    | cons m0 mon' => exact ⟨m0, mon', rfl⟩
  obtain ⟨d0, d', rfl⟩ : ∃ d0 d', d = d0 :: d' := by
    cases d with
    | nil => simp at hd1
    | cons d0 d' => exact ⟨d0, d', rfl⟩
  obtain ⟨y0, y', rfl⟩ : ∃ y0 y', y = y0 :: y' := by
    cases y with
    | nil => simp at hy4
    | cons y0 y' => exact ⟨y0, y', rfl⟩
  set mon := m0 :: mon' with hmon_def
  set d := d0 :: d' with hd_def
  set y := y0 :: y' with hy_def
  set rest2 : List Char := d ++ ',' :: ' ' :: y with hrest2
  set s : List Char := mon ++ ' ' :: rest2 with hs_def
  have hmon_nonws : ∀ a ∈ mon, isWsPy a = false :=
    fun a ha => alpha_not_ws (hmon a ha)
  have hd_nonws : ∀ a ∈ d, isWsPy a = false :=
    fun a ha => digit_not_ws (hd a ha)
  have hy_nonws : ∀ a ∈ y, isWsPy a = false :=
    fun a ha => digit_not_ws (hy a ha)
  -- the normalized input is itself
  have hnorm : normalize_ws s = s := by
    have hwords : pyWords s = [mon, d ++ [','], y] := by
      have h1 : pyWords s = mon :: pyWords (' ' :: rest2) := by
        rw [hs_def]
        exact pyWords_word_front (by simp [hmon_def]) hmon_nonws
          (Or.inr ⟨' ', rest2, rfl, rfl⟩)
      have h2 : pyWords (' ' :: rest2) = pyWords rest2 := pyWords_ws_cons _ rfl
      have h3 : rest2 = (d ++ [',']) ++ ' ' :: y := by simp [hrest2]
      have h4 : pyWords ((d ++ [',']) ++ ' ' :: y) =
          (d ++ [',']) :: pyWords (' ' :: y) := by
        refine pyWords_word_front (by simp) ?_ (Or.inr ⟨' ', y, rfl, rfl⟩)
        intro a ha
        rcases List.mem_append.mp ha with ha2 | ha2
        · exact hd_nonws a ha2
        · simp only [List.mem_singleton] at ha2
          subst ha2
          rfl
      have h5 : pyWords (' ' :: y) = pyWords y := pyWords_ws_cons _ rfl
      have h6 : pyWords y = [y] := by
        have := pyWords_word_front (u := y) (x := []) (by simp [hy_def])
          hy_nonws (Or.inl rfl)
        simpa using this
      rw [h1, h2, h3, h4, h5, h6]
    rw [normWs_eq_joinSp, hwords]
    simp [joinSp, hs_def, hrest2]
  -- the four leading patterns all fail
  have e1 : s.takeWhile isAlphaPy = mon := by
    rw [hs_def]
    exact takeWhile_append_cons_neg _ hmon (by decide)
  have e2 : s.dropWhile isAlphaPy = ' ' :: rest2 := by
    rw [hs_def]
    exact dropWhile_append_cons_neg _ hmon (by decide)
  have e3 : (' ' :: rest2).takeWhile isWsPy = ' ' :: rest2.takeWhile isWsPy :=
    List.takeWhile_cons_of_pos rfl
  have e4 : (' ' :: rest2).dropWhile isWsPy = rest2 := by
    rw [List.dropWhile_cons_of_pos rfl, hrest2, hd_def]
    show List.dropWhile isWsPy (d0 :: (d' ++ ',' :: ' ' :: y)) = _
    exact List.dropWhile_cons_of_neg (by
      simp [digit_not_ws (hd d0 (by simp [hd_def]))])
  have e5 : rest2.takeWhile isDigitPy = d := by
    rw [hrest2]
    exact takeWhile_append_cons_neg _ hd (by decide)
  have e6 : rest2.dropWhile isDigitPy = ',' :: ' ' :: y := by
    rw [hrest2]
    exact dropWhile_append_cons_neg _ hd (by decide)
  have hdlen : (decide (d.length < 1) || decide (2 < d.length)) = false := by
    simp only [Bool.or_eq_false_iff, decide_eq_false_iff_not]
    omega
  have hmonlen : ¬ mon.length < 3 := by omega
  have hm1 : matchMonDDYr s = none := by
    simp only [matchMonDDYr, e1, e2, e3, e4, e5, e6]
    rw [if_neg hmonlen, if_neg (by simp), if_neg (by
      simp only [Bool.or_eq_true, decide_eq_true_eq, not_or, Nat.not_lt]
      omega)]
    rfl
  have hm2 : matchMonDMonDYr s = none := by
    simp only [matchMonDMonDYr, e1, e2, e3, e4, e5, e6]
    rw [if_neg hmonlen, if_neg (by simp), if_neg (by
      simp only [Bool.or_eq_true, decide_eq_true_eq, not_or, Nat.not_lt]
      omega)]
    rw [show (',' :: ' ' :: y).dropWhile isWsPy = ',' :: ' ' :: y from
      List.dropWhile_cons_of_neg (by decide)]
    rfl
  have hm3 : matchYmdRange s = none := by
    have : matchYmdToken s = none := by
      have halpha : isDigitPy m0 = false :=
        alpha_not_digit (hmon m0 (by simp [hmon_def]))
      simp only [matchYmdToken, takeExact, hs_def]
      rw [if_neg (by
        simp only [Bool.and_eq_true, decide_eq_true_eq, not_and]
        intro _
        show ¬ (((m0 :: mon') ++ ' ' :: rest2).take 4).all isDigitPy = true
        simp [List.take, List.all_cons, halpha])]
    simp only [matchYmdRange, this]
  have hm4 : matchDmyRange s = none := by
    have : matchDmyToken s = none := by
      have halpha : isDigitPy m0 = false :=
        alpha_not_digit (hmon m0 (by simp [hmon_def]))
      simp only [matchDmyToken, hs_def]
      rw [show ((m0 :: mon') ++ ' ' :: rest2).takeWhile isDigitPy = [] from
        List.takeWhile_cons_of_neg (by simp [halpha])]
      rw [if_pos (by simp)]
    simp only [matchDmyRange, this]
  -- the fallback finds exactly one token, namely the whole string
  have htok : matchMonthToken s = some (s, []) := by
    simp only [matchMonthToken, e1, e2, e3, e4, e5, e6]
    rw [if_neg hmonlen, if_neg (by simp), if_neg (by
      simp only [Bool.or_eq_true, decide_eq_true_eq, not_or, Nat.not_lt]
      omega)]
    have e7 : (' ' :: y).takeWhile isWsPy = [' '] := by
      rw [List.takeWhile_cons_of_pos rfl, hy_def]
      rw [show List.takeWhile isWsPy (y0 :: y') = [] from
        List.takeWhile_cons_of_neg (by
          simp [digit_not_ws (hy y0 (by simp [hy_def]))])]
    have e8 : (' ' :: y).dropWhile isWsPy = y := by
      rw [List.dropWhile_cons_of_pos rfl, hy_def]
      exact List.dropWhile_cons_of_neg (by
        simp [digit_not_ws (hy y0 (by simp [hy_def]))])
    have e9 : takeExact isDigitPy 4 y = some (y, []) := by
      have ht : y.take 4 = y := by
        rw [List.take_of_length_le (by omega)]
      have hdr : y.drop 4 = [] := by
        rw [List.drop_eq_nil_of_le (by omega)]
      simp only [takeExact, ht, hdr]
      rw [if_pos (by
        simp only [Bool.and_eq_true, decide_eq_true_eq, List.all_eq_true]
        exact ⟨hy4, hy⟩)]
    rw [e7, e8, e9]
    have e10 : rest2.takeWhile isWsPy = [] := by
      rw [hrest2, hd_def, List.cons_append]
      exact List.takeWhile_cons_of_neg (by
        simp [digit_not_ws (hd d0 (by simp [hd_def]))])
    rw [e10]
    simp [hs_def, hrest2]
  have htoks : findDateTokens s = [s] := by
    unfold findDateTokens
    rw [hs_def]
    show findDateTokensGo 0 (m0 :: (mon' ++ ' ' :: rest2)) = _
    have hdt : dateTokenAt (m0 :: (mon' ++ ' ' :: rest2)) = some (s, []) := by
      simp only [dateTokenAt]
      rw [show (m0 :: (mon' ++ ' ' :: rest2)) = s by simp [hs_def, hmon_def],
        htok]
    rw [show findDateTokensGo 0 (m0 :: (mon' ++ ' ' :: rest2)) =
        (match dateTokenAt (m0 :: (mon' ++ ' ' :: rest2)) with
         | some (t, r) =>
           t :: findDateTokensGo ((mon' ++ ' ' :: rest2).length - r.length)
             (mon' ++ ' ' :: rest2)
         | none => findDateTokensGo 0 (mon' ++ ' ' :: rest2)) from rfl, hdt]
    show s :: findDateTokensGo
        ((mon' ++ ' ' :: rest2).length - ([] : List Char).length)
        (mon' ++ ' ' :: rest2) = [mon ++ ' ' :: rest2]
    rw [findDateTokensGo_skip_all (mon' ++ ' ' :: rest2) _ (by simp), hs_def]
  have hne : s.isEmpty = false := by
    simp [hs_def, hmon_def]
  show parse_date_range s = (s, [])
  simp only [parse_date_range, hnorm, hne, Bool.false_eq_true, if_false,
    hm1, hm2, hm3, hm4, htoks]

/-- Witness for C7 at the concrete token `"March 6, 2025"`. -/
theorem C7_canonical_token_fallback_witness :
    parse_date_range ("March".data ++ ' ' :: "6".data ++ ',' :: ' ' :: "2025".data) =
      ("March".data ++ ' ' :: "6".data ++ ',' :: ' ' :: "2025".data, []) :=
  C7_canonical_token_fallback "March".data "6".data "2025".data
    (by decide) (by decide) (by decide) (by decide) (by decide) (by decide)
    (by decide)

/-! ## Claim C2: the winner heuristics -/

theorem contWordsWith_props (cs cr : Char → Bool)
    (hcs : ∀ c, cs c = true → isWsPy c = false)
    (hcr : ∀ c, cr c = true → isWsPy c = false) :
    ∀ (k : Nat) (s : List Char),
    (contWordsWith cs cr k s).1.length ≤ k ∧
    ∀ q ∈ (contWordsWith cs cr k s).1,
      (q.1 ≠ [] ∧ ∀ c ∈ q.1, isWsPy c = true) ∧
      (q.2 ≠ [] ∧ ∀ c ∈ q.2, isWsPy c = false) := by
  intro k
  induction k with
  | zero => intro s; simp [contWordsWith]
  | succ k ih =>
    intro s
    simp only [contWordsWith]
    by_cases hsep : (s.takeWhile isWsPy).isEmpty = true
    · rw [if_pos hsep]
      simp
    rw [if_neg hsep]
    cases hd : s.dropWhile isWsPy with
    | nil => simp
    | cons c rest =>
      dsimp only
      by_cases hcsc : cs c = true
      · rw [if_pos hcsc]
        by_cases hw : (rest.takeWhile cr).isEmpty = true
        · rw [if_pos hw]
          simp
        rw [if_neg hw]
        constructor
        · have := (ih (rest.dropWhile cr)).1
          simpa using Nat.succ_le_succ this
        · intro q hq
          rcases List.mem_cons.mp hq with rfl | hq2
          · refine ⟨⟨?_, fun c2 hc2 => List.mem_takeWhile_imp hc2⟩, by simp, ?_⟩
            · intro hce
              apply hsep
              simpa [List.isEmpty_iff] using hce
            · intro c2 hc2
              rcases List.mem_cons.mp hc2 with rfl | hc3
              · exact hcs _ hcsc
              · exact hcr _ (List.mem_takeWhile_imp hc3)
          · exact (ih (rest.dropWhile cr)).2 q hq2
      · rw [if_neg hcsc]
        simp

theorem matchNameWith_props {fs fr cs cr : Char → Bool}
    (hfs : ∀ c, fs c = true → isWsPy c = false)
    (hfr : ∀ c, fr c = true → isWsPy c = false)
    (hcs : ∀ c, cs c = true → isWsPy c = false)
    (hcr : ∀ c, cr c = true → isWsPy c = false)
    {s w : List Char} {ps : List (List Char × List Char)}
    (h : matchNameWith fs fr cs cr s = some (w, ps)) :
    (w ≠ [] ∧ ∀ c ∈ w, isWsPy c = false) ∧ ps.length ≤ 3 ∧
    ∀ q ∈ ps, (q.1 ≠ [] ∧ ∀ c ∈ q.1, isWsPy c = true) ∧
      (q.2 ≠ [] ∧ ∀ c ∈ q.2, isWsPy c = false) := by
  cases s with
  | nil => simp [matchNameWith] at h
  | cons c rest =>
    simp only [matchNameWith] at h
    split at h
    · rename_i hfsc
      split at h
      · cases h
      · simp only [Option.some.injEq, Prod.mk.injEq] at h
        obtain ⟨rfl, rfl⟩ := h
        refine ⟨⟨by simp, ?_⟩, ?_, ?_⟩
        · intro c2 hc2
          rcases List.mem_cons.mp hc2 with rfl | hc3
          · exact hfs _ hfsc
          · exact hfr _ (List.mem_takeWhile_imp hc3)
        · exact (contWordsWith_props cs cr hcs hcr 3 (rest.dropWhile fr)).1
        · exact (contWordsWith_props cs cr hcs hcr 3 (rest.dropWhile fr)).2
    · cases h

theorem pyWords_candOf :
    ∀ (ps : List (List Char × List Char)) (w : List Char), w ≠ [] →
    (∀ c ∈ w, isWsPy c = false) →
    (∀ q ∈ ps, (q.1 ≠ [] ∧ ∀ c ∈ q.1, isWsPy c = true) ∧
      (q.2 ≠ [] ∧ ∀ c ∈ q.2, isWsPy c = false)) →
    pyWords (candOf w ps) = w :: ps.map (fun q => q.2) := by
  intro ps
  induction ps with
  | nil =>
    intro w hw hwc _
    show pyWords (w ++ []) = [w]
    have := pyWords_word_front hw hwc (Or.inl rfl)
    simpa using this
  | cons q ps ih =>
    intro w hw hwc hps
    obtain ⟨⟨hsep_ne, hsep_ws⟩, hword_ne, hword_c⟩ :=
      hps q (List.mem_cons_self _ _)
    have hrest : candOf w (q :: ps) = w ++ (q.1 ++ candOf q.2 ps) := by
      show w ++ List.foldr (fun p acc => p.1 ++ p.2 ++ acc) [] (q :: ps) = _
      simp [candOf, List.append_assoc]
    rw [hrest]
    obtain ⟨s0, sep', hsep0⟩ : ∃ s0 sep', q.1 = s0 :: sep' := by
      cases hq1 : q.1 with
      | nil => exact absurd hq1 hsep_ne
      | cons s0 sep' => exact ⟨s0, sep', rfl⟩
    have h1 : pyWords (w ++ (q.1 ++ candOf q.2 ps)) =
        w :: pyWords (q.1 ++ candOf q.2 ps) := by
      refine pyWords_word_front hw hwc ?_
      refine Or.inr ⟨s0, sep' ++ candOf q.2 ps, ?_, ?_⟩
      · rw [hsep0]; simp
      · exact hsep_ws s0 (hsep0 ▸ List.mem_cons_self _ _)
    have h2 : pyWords (q.1 ++ candOf q.2 ps) = pyWords (candOf q.2 ps) :=
      pyWords_wsrun_front hsep_ws
    rw [h1, h2, ih q.2 hword_ne hword_c
      (fun q2 hq2 => hps q2 (List.mem_cons_of_mem _ hq2))]
    rfl

theorem winnerGroup2A_some {s w : List Char} {ps : List (List Char × List Char)}
    (h : winnerGroup2A s = some (w, ps)) :
    ∃ s2, matchNameWith isAlphaPy isAlphaPy isAlphaPy isNameContRest s2 =
      some (w, ps) := by
  simp only [winnerGroup2A] at h
  split at h
  · cases h
  · split at h
    · cases h
    · exact ⟨_, h⟩

theorem lazyDotScanA_some {w : List Char} {ps : List (List Char × List Char)} :
    ∀ {s : List Char}, lazyDotScanA s = some (w, ps) →
    ∃ s2, matchNameWith isAlphaPy isAlphaPy isAlphaPy isNameContRest s2 =
      some (w, ps) := by
  intro s
  induction s with
  | nil =>
    intro h
    simp only [lazyDotScanA] at h
    exact Option.noConfusion h
  | cons c cs ih =>
    intro h
    simp only [lazyDotScanA] at h
    cases hp : winnerGroup2A (c :: cs) with
    | some p =>
      rw [hp] at h
      cases h
      exact winnerGroup2A_some hp
    | none =>
      rw [hp] at h
      by_cases hc : c = '\n'
      · rw [if_pos hc] at h
        simp at h
      · rw [if_neg hc] at h
        exact ih h

theorem searchWinnerA_some {w : List Char} {ps : List (List Char × List Char)} :
    ∀ {s : List Char}, searchWinnerA s = some (w, ps) →
    ∃ s2, matchNameWith isAlphaPy isAlphaPy isAlphaPy isNameContRest s2 =
      some (w, ps) := by
  intro s
  induction s with
  | nil => intro h; simp [searchWinnerA] at h
  | cons c cs ih =>
    intro h
    simp only [searchWinnerA] at h
    cases hlit : stripLitCI "Singles".data (c :: cs) with
    | some p =>
      obtain ⟨m1, r⟩ := p
      rw [hlit] at h
      dsimp only at h
      cases hscan : lazyDotScanA r with
      | some m =>
        rw [hscan] at h
        cases h
        exact lazyDotScanA_some hscan
      | none =>
        rw [hscan] at h
        exact ih h
    | none =>
      rw [hlit] at h
      exact ih h

theorem winnerBAt_some {s w : List Char} {ps : List (List Char × List Char)}
    (h : winnerBAt s = some (w, ps)) :
    ∃ s2, matchNameWith isUpperPy isAlphaPy isUpperPy isNameContRest s2 =
      some (w, ps) := by
  simp only [winnerBAt] at h
  split at h
  · cases h
  · split at h
    · exact ⟨_, h⟩
    · cases h

theorem searchWinnerB_some {w : List Char} {ps : List (List Char × List Char)} :
    ∀ {s : List Char}, searchWinnerB s = some (w, ps) →
    ∃ s2, matchNameWith isUpperPy isAlphaPy isUpperPy isNameContRest s2 =
      some (w, ps) := by
  intro s
  induction s with
  | nil => intro h; simp [searchWinnerB] at h
  | cons c cs ih =>
    intro h
    simp only [searchWinnerB] at h
    cases hp : winnerBAt (c :: cs) with
    | some p =>
      rw [hp] at h
      cases h
      exact winnerBAt_some hp
    | none =>
      rw [hp] at h
      exact ih h

theorem isNameContRest_not_ws : ∀ c, isNameContRest c = true → isWsPy c = false := by
  intro c h
  simp only [isNameContRest, Bool.or_eq_true, decide_eq_true_eq] at h
  rcases h with (h | rfl) | rfl
  · exact alpha_not_ws h
  · rfl
  · rfl

theorem upper_not_ws : ∀ c, isUpperPy c = true → isWsPy c = false := by
  intro c h
  refine alpha_not_ws ?_
  simp only [isAlphaPy, Bool.or_eq_true, Bool.and_eq_true]
  simp only [isUpperPy, Bool.and_eq_true] at h
  exact Or.inl h

theorem alpha_not_ws_fn : ∀ c, isAlphaPy c = true → isWsPy c = false :=
  fun _ h => alpha_not_ws h

/-- The words and normalized form of a matched name. -/
theorem matched_name_shape {fs fr cs cr : Char → Bool}
    (hfs : ∀ c, fs c = true → isWsPy c = false)
    (hfr : ∀ c, fr c = true → isWsPy c = false)
    (hcs : ∀ c, cs c = true → isWsPy c = false)
    (hcr : ∀ c, cr c = true → isWsPy c = false)
    {s w : List Char} {ps : List (List Char × List Char)}
    (h : matchNameWith fs fr cs cr s = some (w, ps)) :
    pyWords (candOf w ps) = w :: ps.map (fun q => q.2) ∧
    normalize_ws (candOf w ps) = joinSp (w :: ps.map (fun q => q.2)) ∧
    ps.length ≤ 3 ∧
    ∀ u ∈ w :: ps.map (fun q => q.2), u ≠ [] ∧ ∀ c ∈ u, isWsPy c = false := by
  obtain ⟨⟨hw_ne, hw_c⟩, hlen, hps⟩ := matchNameWith_props hfs hfr hcs hcr h
  have hpw := pyWords_candOf ps w hw_ne hw_c hps
  refine ⟨hpw, ?_, hlen, ?_⟩
  · rw [normWs_eq_joinSp, hpw]
  · intro u hu
    rcases List.mem_cons.mp hu with rfl | hu2
    · exact ⟨hw_ne, hw_c⟩
    · obtain ⟨q, hq, rfl⟩ := List.mem_map.mp hu2
      exact (hps q hq).2

/-- Counterexample to claim C2 as stated: on the page text
`"Champion: Alcaraz"` the winner resolver returns the one-word name
`"Alcaraz"` (heuristic (b)'s name pattern allows 1 to 4 words), and on
`"singles champion jon smith"` it returns the uncapitalized `"jon smith"`
(heuristic (a) is case-insensitive, so its `[A-Z]` matches any letter). -/
theorem C2_counterexample :
    (try_extract_winner_from_results_text "Champion: Alcaraz".data =
        "Alcaraz".data ∧
      (pyWords (try_extract_winner_from_results_text
        "Champion: Alcaraz".data)).length = 1) ∧
    (try_extract_winner_from_results_text "singles champion jon smith".data =
        "jon smith".data ∧
      isUpperPy (try_extract_winner_from_results_text
        "singles champion jon smith".data).headI = false) := by
  exact ⟨⟨by decide, by decide⟩, ⟨by decide, by decide⟩⟩

/-- Claim C2 (amended): for every page text, the winner resolver returns
either the empty string or a name that is the single-space join of 1 to 4
non-empty whitespace-free words: heuristic (a) is tried first and its
captured name is returned (normalized) only when it has 2 to 4 words;
otherwise heuristic (b)'s captured name, which may have 1 to 4 words, is
returned normalized; the empty string is returned when neither applies.
(Because heuristic (a) matches case-insensitively, no capitalization of the
returned name is guaranteed.) -/
theorem C2_winner_shape (txt : List Char) :
    try_extract_winner_from_results_text txt = [] ∨
    ∃ ws : List (List Char),
      try_extract_winner_from_results_text txt = joinSp ws ∧
      1 ≤ ws.length ∧ ws.length ≤ 4 ∧
      ∀ u ∈ ws, u ≠ [] ∧ ∀ c ∈ u, isWsPy c = false := by
  have hB : (match searchWinnerB txt with
      | some (w, ps) => normalize_ws (candOf w ps)
      | none => []) = [] ∨
      ∃ ws : List (List Char), (match searchWinnerB txt with
      | some (w, ps) => normalize_ws (candOf w ps)
      | none => []) = joinSp ws ∧
      1 ≤ ws.length ∧ ws.length ≤ 4 ∧
      ∀ u ∈ ws, u ≠ [] ∧ ∀ c ∈ u, isWsPy c = false := by
    cases hsb : searchWinnerB txt with
    | none => exact Or.inl rfl
    | some p =>
      obtain ⟨w, ps⟩ := p
      obtain ⟨s2, hm⟩ := searchWinnerB_some hsb
      obtain ⟨hpw, hnorm, hlen, hprops⟩ := matched_name_shape
        upper_not_ws alpha_not_ws_fn upper_not_ws isNameContRest_not_ws hm
      refine Or.inr ⟨w :: ps.map (fun q => q.2), hnorm, by simp, ?_, hprops⟩
      simp only [List.length_cons, List.length_map]
      omega
  cases hsa : searchWinnerA txt with
  | none =>
    have heq : try_extract_winner_from_results_text txt =
        (match searchWinnerB txt with
         | some (w, ps) => normalize_ws (candOf w ps)
         | none => []) := by
      unfold try_extract_winner_from_results_text
      rw [hsa]
    rw [heq]
    exact hB
  | some p =>
    obtain ⟨w, ps⟩ := p
    have heq : try_extract_winner_from_results_text txt =
        (if (2 ≤ (pyWords (candOf w ps)).length &&
            (pyWords (candOf w ps)).length ≤ 4) = true then
          normalize_ws (candOf w ps)
         else
          (match searchWinnerB txt with
           | some (w, ps) => normalize_ws (candOf w ps)
           | none => [])) := by
      unfold try_extract_winner_from_results_text
      rw [hsa]
    rw [heq]
    obtain ⟨s2, hm⟩ := searchWinnerA_some hsa
    obtain ⟨hpw, hnorm, hlen, hprops⟩ := matched_name_shape
      alpha_not_ws_fn alpha_not_ws_fn alpha_not_ws_fn isNameContRest_not_ws hm
    by_cases hcount : (2 ≤ (pyWords (candOf w ps)).length &&
        (pyWords (candOf w ps)).length ≤ 4) = true
    · rw [if_pos hcount]
      refine Or.inr ⟨w :: ps.map (fun q => q.2), hnorm, by simp, ?_, hprops⟩
      rw [hpw] at hcount
      simp only [Bool.and_eq_true, decide_eq_true_eq] at hcount
      exact hcount.2
    · rw [if_neg hcount]
      exact hB

end ATPScrape
